import Mathlib

/-!
Verification of the fuzzysearch repository's natural-language specification
against a shallow Lean embedding of its Rust sources.

Each section embeds the data model and operations of one component, translated
from the corresponding Rust source file, and proves (or refutes) the claims
that concern it.  Machine integers are modelled as `Int`/`Nat` with explicit
wrap-around where overflow matters; fallible operations return `Option` or
`Except`; strings are modelled as `List Char` so that every definition is
executable and decidable on concrete inputs.
-/

deriving instance DecidableEq for Except

namespace Fuzzysearch

/-! ## FurAffinity ingest worker (src/fuzzysearch-ingest-furaffinity/src/main.rs)

The ingest loop asks the store for the candidate ids to probe via
`ids_to_check`, whose SQL is

  SELECT sid FROM generate_series((SELECT max(id) FROM submission), $1::int) sid
  WHERE sid NOT IN (SELECT id FROM submission where id = sid)

and then processes the returned rows in order.
-/

namespace IngestFA

/-- Embedding of PostgreSQL `generate_series(lo, hi)` for `int` arguments with
the default step of 1: the ascending list `lo, lo+1, …, hi`, empty when
`lo > hi`. -/
def generateSeries (lo hi : Int) : List Int :=
  (List.range (hi + 1 - lo).toNat).map (fun (i : Nat) => lo + (i : Int))

/-- Embedding of `ids_to_check` from src/fuzzysearch-ingest-furaffinity/src/main.rs.
`stored` is the multiset of ids in the `submission` table and `latest` the
`$1` parameter (the latest id seen upstream).  `SELECT max(id) FROM submission`
is `stored.max?`; when the table is empty the aggregate is NULL and
`generate_series(NULL, $1)` produces no rows. -/
def idsToCheck (stored : List Int) (latest : Int) : List Int :=
  match stored.max? with
  | none => []
  | some lo => (generateSeries lo latest).filter (fun sid => !stored.contains sid)

/-- Candidate set as the claim words it: the missing ids in `[1, latest_id]`,
the set difference between `generate_series` and the stored ids.  This
definition follows the claim's words and is compared against `idsToCheck`,
which is translated from the source. -/
def claimedIdsToCheck (stored : List Int) (latest : Int) : List Int :=
  (generateSeries 1 latest).filter (fun sid => !stored.contains sid)

end IngestFA

/-! ## Refresh worker (src/fuzzysearch-refresh/src/main.rs)

The `furaffinity_load` job handler reads the stored submission's `updated_at`
and skips the refresh when

  let diff = last_updated.signed_duration_since(chrono::Utc::now());
  if diff.num_days() < 30 { return Ok(()); }

`chrono::Duration::num_days` divides the duration's whole seconds by 86400
with Rust `i64` division, which truncates toward zero.
-/

namespace Refresh

/-- Embedding of `chrono::Duration::num_days` on a duration measured in whole
seconds: `i64` division by 86400, truncating toward zero. -/
def numDays (secs : Int) : Int := secs.tdiv 86400

/-- Outcome of the `furaffinity_load` handler, as far as the upstream site is
concerned: either the handler returned `Ok(())` at the 30-day check without
calling `fa.get_submission`, or it proceeded to fetch the submission. -/
inductive LoadOutcome where
  | skippedRecent
  | fetchedUpstream
deriving DecidableEq

/-- Embedding of the skip logic of the `furaffinity_load` handler in
src/fuzzysearch-refresh/src/main.rs: `lastUpdated` is the stored
`updated_at` (as unix seconds) and `now` the current time.  The handler
returns without contacting FurAffinity exactly when a timestamp is present
and `(last_updated - now).num_days() < 30`. -/
def furaffinityLoad (lastUpdated : Option Int) (now : Int) : LoadOutcome :=
  match lastUpdated with
  | some lu => if numDays (lu - now) < 30 then .skippedRecent else .fetchedUpstream
  | none => .fetchedUpstream

end Refresh

/-! ## Hash index (src/fuzzysearch/src/main.rs)

The index process holds a `bk_tree::BKTree<Node, Hamming>` where
`Node(pub [u8; 8])` is built from an `i64` hash via `to_be_bytes`, and the
metric is the Hamming distance of the two byte arrays
(`hamming::distance_fast`).  A node's 8 big-endian bytes are exactly the
64-bit two's-complement pattern of the hash, so a node is modelled as that
pattern (a natural number below `2^64`) and the metric as the popcount of the
bitwise XOR.

`create_tree` streams hash rows and, for each non-null hash, skips it when
`tree.find_exact(&Node::new(hash)).is_some()` and otherwise `tree.add`s it;
`load_updates` applies the same guarded insert for each `hash_added`
notification.  The external `bk_tree` crate is modelled as the textbook
BK-tree: `add` walks edges labelled by the distance to each node's key and
appends a fresh leaf when no edge matches (conservatively, it would append a
duplicate at edge 0 if called with a key already present — deduplication in
the model comes only from the repository's `find_exact` guard); `find` prunes
children to edges within `[d - radius, d + radius]`; `find_exact` is a find
with radius 0.
-/

namespace HashIndex

/-- Fuel-driven popcount kernel: sums the binary digits of `n`, consuming one
unit of fuel per digit.  `fuel = n` is always enough, see `popCountAux_zero_iff`. -/
def popCountAux : Nat → Nat → Nat
  | 0, _ => 0
  | fuel + 1, n => if n = 0 then 0 else popCountAux fuel (n / 2) + n % 2

/-- Number of set bits of a natural number. -/
def popCount (n : Nat) : Nat := popCountAux n n

/-- Embedding of `Node::new(hash: i64)`: the 64-bit two's-complement pattern of
the hash (what `to_be_bytes` spells out byte by byte). -/
def nodeOfHash (h : Int) : Nat := (h % (2 ^ 64 : Nat)).toNat

/-- Embedding of `impl bk_tree::Metric<Node> for Hamming`: the Hamming distance
between the byte arrays of two nodes, i.e. the popcount of the XOR of their
bit patterns. -/
def dist (a b : Nat) : Nat := popCount (a ^^^ b)

/-- A node of `bk_tree::BKTree`: a key plus children indexed by the distance
from the key to the child subtree. -/
inductive BKNode where
  | node (key : Nat) (children : List (Nat × BKNode))
deriving Repr

mutual

/-- Keys stored in a node's subtree, root first. -/
def BKNode.keys : BKNode → List Nat
  | .node k c => k :: BKNode.keysChildren c

def BKNode.keysChildren : List (Nat × BKNode) → List Nat
  | [] => []
  | (_, t) :: rest => BKNode.keys t ++ BKNode.keysChildren rest

end

mutual

/-- Embedding of `bk_tree` node insertion: compute the distance to this node's
key, follow the child with that edge if present, otherwise append a fresh
leaf under that edge. -/
def BKNode.add (x : Nat) : BKNode → BKNode
  | .node k c => .node k (BKNode.addChildren x (dist k x) c)

def BKNode.addChildren (x d : Nat) : List (Nat × BKNode) → List (Nat × BKNode)
  | [] => [(d, .node x [])]
  | (e, t) :: rest =>
    if e = d then (e, BKNode.add x t) :: rest
    else (e, t) :: BKNode.addChildren x d rest

end

mutual

/-- Embedding of `bk_tree` bounded-radius search: report this node's key when
it lies within the radius and recurse into children whose edge lies in
`[d - radius, d + radius]` (`d - radius` saturating at 0, as
`saturating_sub` does). -/
def BKNode.find (q r : Nat) : BKNode → List Nat
  | .node k c =>
    let d := dist k q
    (if d ≤ r then [k] else []) ++ BKNode.findChildren q r d c

def BKNode.findChildren (q r d : Nat) : List (Nat × BKNode) → List Nat
  | [] => []
  | (e, t) :: rest =>
    (if d - r ≤ e ∧ e ≤ d + r then BKNode.find q r t else []) ++
      BKNode.findChildren q r d rest

end

mutual

/-- Well-formedness of a BK-tree node: every key below a child edge `e` is at
distance exactly `e` from this node's key.  This is the invariant `add`
maintains and `find` relies on for completeness. -/
def BKNode.wf : BKNode → Bool
  | .node k c => BKNode.wfChildren k c

def BKNode.wfChildren (k : Nat) : List (Nat × BKNode) → Bool
  | [] => true
  | (e, t) :: rest =>
    (BKNode.keys t).all (fun x => dist k x == e) && BKNode.wf t &&
      BKNode.wfChildren k rest

end

/-- Embedding of `bk_tree::BKTree`: an optional root node. -/
abbrev BKTree := Option BKNode

/-- Embedding of `BKTree::add`. -/
def treeAdd (t : BKTree) (x : Nat) : BKTree :=
  match t with
  | none => some (.node x [])
  | some root => some (root.add x)

/-- Embedding of `BKTree::find`. -/
def treeFind (t : BKTree) (q r : Nat) : List Nat :=
  match t with
  | none => []
  | some root => root.find q r

/-- Embedding of `BKTree::find_exact`: the first hit of a radius-0 find. -/
def findExact (t : BKTree) (q : Nat) : Option Nat := (treeFind t q 0).head?

/-- Keys of the whole tree. -/
def treeKeys (t : BKTree) : List Nat :=
  match t with
  | none => []
  | some root => root.keys

/-- Number of nodes of the tree. -/
def treeSize (t : BKTree) : Nat := (treeKeys t).length

/-- Tree-level well-formedness. -/
def treeWf (t : BKTree) : Bool :=
  match t with
  | none => true
  | some root => root.wf

/-- The guarded insert shared by `create_tree` and the `hash_added`
notification path of `load_updates`: skip when `find_exact` hits, otherwise
`add`. -/
def hashAdded (t : BKTree) (hash : Int) : BKTree :=
  if (findExact t (nodeOfHash hash)).isSome then t else treeAdd t (nodeOfHash hash)

/-- Embedding of `create_tree`: fold the guarded insert over the streamed rows
(whose hash column is nullable), starting from the fresh empty tree. -/
def createTree (rows : List (Option Int)) : BKTree :=
  rows.foldl
    (fun t row =>
      match row with
      | none => t
      | some h => hashAdded t h)
    none

end HashIndex

/-! ## Decimal rendering and parsing (shared helpers)

Rust renders integers through `Display` (decimal digits, `-` sign for
negative values) and parses them through `FromStr` (optional `+`/`-` sign,
at least one ASCII digit, overflow rejected).  Strings are modelled as
`List Char`.
-/

namespace Text

/-- Fuel-driven decimal digit emitter; `fuel = n + 1` always suffices. -/
def natDecimalAux : Nat → Nat → List Char
  | 0, _ => []
  | fuel + 1, n =>
    if n < 10 then [Char.ofNat (48 + n)]
    else natDecimalAux fuel (n / 10) ++ [Char.ofNat (48 + n % 10)]

/-- Decimal rendering of a natural number (`Display` for unsigned integers). -/
def natDecimal (n : Nat) : List Char := natDecimalAux (n + 1) n

/-- Decimal rendering of a signed integer (`Display` for `i64`). -/
def intDecimal (i : Int) : List Char :=
  if i < 0 then '-' :: natDecimal ((-i).toNat) else natDecimal i.toNat

/-- Numeric value of a digit string (the accumulator loop of integer
`FromStr`). -/
def digitsVal (cs : List Char) : Nat :=
  cs.foldl (fun acc c => acc * 10 + (c.toNat - 48)) 0

/-- Embedding of `str::parse::<i64>()`: optional sign, at least one ASCII
digit, magnitude within the `i64` range. -/
def parseI64 (cs : List Char) : Option Int :=
  match cs with
  | [] => none
  | c :: rest =>
    let digits := if c = '-' ∨ c = '+' then rest else cs
    if digits = [] ∨ ¬digits.all Char.isDigit then none
    else
      let n := digitsVal digits
      if c = '-' then if n ≤ 2 ^ 63 then some (-(n : Int)) else none
      else if n ≤ 2 ^ 63 - 1 then some (n : Int) else none

/-- Embedding of `str::parse::<usize>()` on a 64-bit platform: optional `+`,
at least one ASCII digit, value below `2^64`. -/
def parseUsize (cs : List Char) : Option Nat :=
  match cs with
  | [] => none
  | c :: rest =>
    let digits := if c = '+' then rest else cs
    if digits = [] ∨ ¬digits.all Char.isDigit then none
    else
      let n := digitsVal digits
      if n < 2 ^ 64 then some n else none

/-- Embedding of Rust `str::split(',')`: the fragments between commas, with
empty fragments preserved (so the empty string splits to one empty
fragment). -/
def splitComma : List Char → List (List Char)
  | [] => [[]]
  | c :: rest =>
    match splitComma rest with
    | [] => [[]]
    | cur :: rs => if c = ',' then [] :: cur :: rs else (c :: cur) :: rs

/-- Joining fragments with commas (inverse of `splitComma` on comma-free
fragments). -/
def joinComma : List (List Char) → List Char
  | [] => []
  | [e] => e
  | e :: e2 :: rest => e ++ ',' :: joinComma (e2 :: rest)

end Text

/-! ## Public API service (src/fuzzysearch-api/src/main.rs)

The handlers are embedded as pure functions over an explicit rate-limit
counter state and an abstract search environment:

* the BKApi client `search_many(hashes, distance)` (an external service with
  the Hash Index contract) is a parameter `searchMany : Int → Nat → List
  (Int × Nat)` giving, per searched hash, the `(found_hash, distance)` pairs;
* the metadata join `queries/lookup_hashes.sql` is a parameter `db : List
  HashSearch → List HashLookupResult`; the claims under study do not depend
  on its contents, only on the `distance` field of the rows it yields;
* `chrono::Utc::now().timestamp()` is an explicit `now : Int` argument;
* the hash-input service's successful answer is an explicit hash argument
  (the claims under study concern the paths after a successful decode).

Handlers also return the list of `search_many` calls they performed (the
"trace"), so that claims about which index lookups happen are statable.
-/

namespace Api

/-- Rate-limit counter table: rows keyed by `(api_key_id, time_window,
group_name)` with a count.  Modelled from the spec: the SQL in
queries/update_rate_limit.sql is not part of the source snapshot; the spec
describes `increment_rate_limit(api_key_id, window, bucket, incr)` as an
atomic upsert that inserts the row with `count = incr` or adds `incr` to the
existing row and returns the resulting count. -/
abbrev RateState := List ((Int × Int × String) × Int)

/-- Current count of a counter row, 0 when absent. -/
def rlCount (s : RateState) (k : Int × Int × String) : Int :=
  match s with
  | [] => 0
  | (k', c) :: rest => if k' = k then c else rlCount rest k

/-- Upsert of one counter row: add `incr` to the row keyed `k`, inserting it
with count `incr` when absent; also returns the resulting count. -/
def rlUpsert (k : Int × Int × String) (incr : Int) : RateState → RateState × Int
  | [] => ([(k, incr)], incr)
  | (k', c) :: rest =>
    if k' = k then ((k', c + incr) :: rest, c + incr)
    else
      let r := rlUpsert k incr rest
      ((k', c) :: r.1, r.2)

/-- Modelled from the spec: atomic upsert of the rate-limit counter, returning
the updated table and the resulting count (queries/update_rate_limit.sql is
missing from the source snapshot; the spec describes an insert with
`count = incr` or an addition of `incr` to the existing row, returning the
resulting count). -/
def incrementRateLimit (s : RateState) (keyId window : Int) (bucket : String)
    (incr : Int) : RateState × Int :=
  rlUpsert (keyId, window, bucket) incr s

/-- The fields of `UserApiKey` the rate limiter reads (limits are `i16` in the
source; counts stay far below `i16` bounds in any realistic window). -/
structure UserApiKey where
  id : Int
  name_limit : Int
  image_limit : Int
  hash_limit : Int
deriving DecidableEq, Repr

/-- Embedding of `enum RateLimit`: either limited, or available with
`(remaining, total)` — the source stores `(key_group_limit - count,
key_group_limit)`. -/
inductive RateLimit where
  | limited
  | available (remaining : Int) (total : Int)
deriving DecidableEq, Repr

/-- Embedding of `update_rate_limit`: compute the window as
`timestamp - (timestamp % 60)` (Rust `%` truncates like `Int.tmod`),
increment the `(key, window, bucket)` counter by `incr_by`, and compare the
resulting count against the key's limit for the bucket. -/
def update_rate_limit (s : RateState) (keyId : Int) (keyGroupLimit : Int)
    (groupName : String) (incrBy : Int) (now : Int) : RateState × RateLimit :=
  let timestamp := now
  let timeWindow := timestamp - timestamp.tmod 60
  let (s', count) := incrementRateLimit s keyId timeWindow groupName incrBy
  if count > keyGroupLimit then (s', .limited)
  else (s', .available (keyGroupLimit - count) keyGroupLimit)

/-- The window value the claim describes: `floor(unix_seconds / 60)`.  This
definition follows the claim's words and is compared against the window the
source computes. -/
def claimedWindow (now : Int) : Int := now / 60

/-- Errors the embedded handlers produce, with their HTTP status.
`BadRequest` carries its message; `RateLimited` carries only the bucket name
(the source struct has no other field). -/
inductive ApiError where
  | badRequest (message : List Char)
  | rateLimited (bucket : String)
deriving DecidableEq, Repr

/-- HTTP status of an error response (`impl ResponseError`). -/
def ApiError.status : ApiError → Nat
  | .badRequest _ => 400
  | .rateLimited _ => 429

/-- Embedding of the `rate_limit!` macro body: run `update_rate_limit`,
fail with `RateLimited { bucket }` when limited, otherwise yield the
`(remaining, total)` pair. -/
def rateLimitStep (s : RateState) (key : UserApiKey) (keyGroupLimit : Int)
    (bucket : String) (incrBy : Int) (now : Int) :
    RateState × Except ApiError (Int × Int) :=
  match update_rate_limit s key.id keyGroupLimit bucket incrBy now with
  | (s', .limited) => (s', .error (.rateLimited bucket))
  | (s', .available remaining total) => (s', .ok (remaining, total))

/-- Embedding of `struct HashSearch` (the triple serialized for the metadata
join). -/
structure HashSearch where
  searched_hash : Int
  found_hash : Int
  distance : Nat
deriving DecidableEq, Repr

/-- A row of the metadata join as the handlers see it.  Only `distance`,
`hash` and `searched_hash` matter to the claims; the remaining columns
(site, url, filename, artists, rating, posted_at) are folded into an opaque
`payload` index. -/
structure HashLookupResult where
  hash : Int
  searched_hash : Int
  distance : Nat
  payload : Nat
deriving DecidableEq, Repr

/-- The abstract collaborators of the handlers: the BKApi index service and
the metadata store join. -/
structure SearchEnv where
  searchMany : Int → Nat → List (Int × Nat)
  db : List HashSearch → List HashLookupResult

/-- Record of one `search_many` call: the hashes and the distance queried. -/
abbrev SearchTrace := List (List Int × Nat)

/-- The triples `lookup_hashes` accumulates from the index results. -/
def indexTriples (env : SearchEnv) (hashes : List Int) (distance : Nat) :
    List HashSearch :=
  (hashes.map (fun h => (h, env.searchMany h distance))).flatMap
    (fun p => p.2.map (fun r => ⟨p.1, r.1, r.2⟩))

/-- Embedding of `lookup_hashes`: reject distances above 10 before any index
search, otherwise query the index once and join the triples against the
metadata store.  Returns the search trace alongside the result. -/
def lookup_hashes (env : SearchEnv) (hashes : List Int) (distance : Nat) :
    SearchTrace × Except ApiError (List HashLookupResult) :=
  if distance > 10 then
    ([], .error (.badRequest (("distance too large: ").data ++ Text.natDecimal distance)))
  else
    ([(hashes, distance)], .ok (env.db (indexTriples env hashes distance)))

/-- Embedding of `enum ImageSearchType`. -/
inductive ImageSearchType where
  | force
  | close
  | exact
deriving DecidableEq, Repr

/-- Response of the image/url handlers: the hash, the matches, and the
response headers (header values are integers in every case used here). -/
structure ImageSearchResult where
  hash : Int
  /-- The `matches` field of the source struct (`matches` is reserved in
  Lean). -/
  matched : List HashLookupResult
  headers : List (String × Int)
deriving DecidableEq, Repr

/-- Response of the `/hashes` handler. -/
structure HashesResult where
  results : List HashLookupResult
  headers : List (String × Int)
deriving DecidableEq, Repr

/-- Sort comparator of `Api::image`: ascending by distance. -/
def byDistance (a b : HashLookupResult) : Bool := a.distance ≤ b.distance

/-- Embedding of `Api::hashes` (GET /hashes): split the query on commas, keep
the first 10 fragments, drop fragments that do not parse as `i64`, charge the
image bucket by the number of parsed hashes, reject an empty list, then run
`lookup_hashes` with the given distance (default 3) and attach the image
rate-limit headers. -/
def hashes_handler (env : SearchEnv) (s : RateState) (auth : UserApiKey)
    (now : Int) (hashesParam : List Char) (distanceParam : Option Nat) :
    RateState × SearchTrace × Except ApiError HashesResult :=
  let hashes : List Int := ((Text.splitComma hashesParam).take 10).filterMap Text.parseI64
  match rateLimitStep s auth auth.image_limit ("image") (hashes.length) now with
  | (s1, .error e) => (s1, [], .error e)
  | (s1, .ok imageRemaining) =>
    if hashes.isEmpty then
      (s1, [], .error (.badRequest ("hashes must be provided").data))
    else
      match lookup_hashes env hashes (distanceParam.getD 3) with
      | (trace, .error e) => (s1, trace, .error e)
      | (trace, .ok results) =>
        (s1, trace, .ok
          { results := results
            headers := [(("x-rate-limit-total-image"), imageRemaining.2),
              (("x-rate-limit-remaining-image"), imageRemaining.1)] })

/-- The mode-dispatch block of `Api::image`: `force` searches at distance 10
directly; otherwise distance 0 first, escalating to 10 only when that
returned nothing and the mode is not `exact`.  Returns the trace of
`search_many` calls together with the chosen results. -/
def imageModeSearch (env : SearchEnv) (st : ImageSearchType) (hashes : List Int) :
    SearchTrace × List HashLookupResult :=
  if st = .force then
    match lookup_hashes env hashes 10 with
    | (t, .ok r) => (t, r)
    | (t, .error _) => (t, [])
  else
    match lookup_hashes env hashes 0 with
    | (t0, .ok r0) =>
      if r0.isEmpty ∧ st ≠ .exact then
        match lookup_hashes env hashes 10 with
        | (t10, .ok r10) => (t0 ++ t10, r10)
        | (t10, .error _) => (t0 ++ t10, [])
      else (t0, r0)
    | (t0, .error _) => (t0, [])

/-- Embedding of `Api::image` (POST /image): charge the image and hash
buckets, hash the upload (`imageHash` is the hash-input service's successful
answer), then search per mode (`imageModeSearch`), sort ascending by distance
and attach the headers. -/
def image_handler (env : SearchEnv) (s : RateState) (auth : UserApiKey)
    (now : Int) (searchType : Option ImageSearchType) (imageHash : Int) :
    RateState × SearchTrace × Except ApiError ImageSearchResult :=
  match rateLimitStep s auth auth.image_limit ("image") 1 now with
  | (s1, .error e) => (s1, [], .error e)
  | (s1, .ok imageRemaining) =>
    match rateLimitStep s1 auth auth.hash_limit ("hash") 1 now with
    | (s2, .error e) => (s2, [], .error e)
    | (s2, .ok hashRemaining) =>
      let st := searchType.getD .close
      let hashes := [imageHash]
      let trace := (imageModeSearch env st hashes).1
      let results := (imageModeSearch env st hashes).2
      let sorted := results.mergeSort byDistance
      (s2, trace, .ok
        { hash := imageHash
          matched := sorted
          headers := [(("x-image-hash"), imageHash),
            (("x-rate-limit-total-image"), imageRemaining.2),
            (("x-rate-limit-remaining-image"), imageRemaining.1),
            (("x-rate-limit-total-hash"), hashRemaining.2),
            (("x-rate-limit-remaining-hash"), hashRemaining.1)] })

/-- The `format!("image too large: {} bytes", content_length)` message. -/
def imageTooLargeMsg (contentLength : Nat) : List Char :=
  ("image too large: ").data ++ Text.natDecimal contentLength ++ (" bytes").data

/-- The streaming accumulation loop of `Api::url`: add chunks to the buffer,
failing as soon as the buffer would exceed 10 000 000 bytes (the error
message quotes the advertised content length). -/
def accumulateChunks (contentLength : Nat) : List Nat → Nat → Except ApiError Nat
  | [], buf => .ok buf
  | chunk :: rest, buf =>
    if buf + chunk > 10000000 then .error (.badRequest (imageTooLargeMsg contentLength))
    else accumulateChunks contentLength rest (buf + chunk)

/-- Embedding of `Api::url` (GET /url): charge the image and hash buckets,
read the advertised `content-length` (unparsable or absent counts as 0),
reject when it exceeds 10 000 000, then stream the body rejecting as soon as
the accumulated bytes would exceed 10 000 000; finally hash the downloaded
bytes (`urlHash` is the hash-input service's successful answer) and run
`lookup_hashes` at the requested distance (default 3). -/
def url_handler (env : SearchEnv) (s : RateState) (auth : UserApiKey)
    (now : Int) (contentLengthHeader : Option (List Char)) (chunks : List Nat)
    (urlHash : Int) (distanceParam : Option Nat) :
    RateState × SearchTrace × Except ApiError ImageSearchResult :=
  match rateLimitStep s auth auth.image_limit ("image") 1 now with
  | (s1, .error e) => (s1, [], .error e)
  | (s1, .ok imageRemaining) =>
    match rateLimitStep s1 auth auth.hash_limit ("hash") 1 now with
    | (s2, .error e) => (s2, [], .error e)
    | (s2, .ok hashRemaining) =>
      let distance := distanceParam.getD 3
      let contentLength := ((contentLengthHeader.bind Text.parseUsize)).getD 0
      if contentLength > 10000000 then
        (s2, [], .error (.badRequest (imageTooLargeMsg contentLength)))
      else
        match accumulateChunks contentLength chunks 0 with
        | .error e => (s2, [], .error e)
        | .ok _ =>
          match lookup_hashes env [urlHash] distance with
          | (trace, .error e) => (s2, trace, .error e)
          | (trace, .ok results) =>
            (s2, trace, .ok
              { hash := urlHash
                matched := results
                headers := [(("x-image-hash"), urlHash),
                  (("x-rate-limit-total-image"), imageRemaining.2),
                  (("x-rate-limit-remaining-image"), imageRemaining.1),
                  (("x-rate-limit-total-hash"), hashRemaining.2),
                  (("x-rate-limit-remaining-hash"), hashRemaining.1)] })

end Api

/-! ## Webhook payload serialization (src/fuzzysearch-common/src/faktory.rs)

`WebHookData` is serialized with serde: `site` is a plain unit-variant enum
(variant name as a JSON string), `site_id` uses the `string` module
(`Display` out, `FromStr` back), and `file_sha256` / `hash` use the
`b64_vec` / `b64_u8` modules: `Some(bytes)` becomes the standard base64
string, `None` becomes JSON null (`serialize_none`), and deserialization
reads an `Option<String>`, base64-decodes it, and (for `hash`) requires
exactly 8 bytes (`try_into::<[u8; 8]>`).

The base64 codec of the external `base64` crate (standard alphabet with `=`
padding, as `base64::encode`/`decode` default) is embedded below; bytes are
naturals below 256.
-/

namespace Serial

/-- Standard base64 alphabet character for a 6-bit value. -/
def b64Char (n : Nat) : Char :=
  if n < 26 then Char.ofNat (65 + n)
  else if n < 52 then Char.ofNat (97 + (n - 26))
  else if n < 62 then Char.ofNat (48 + (n - 52))
  else if n = 62 then '+'
  else '/'

/-- Inverse of the standard base64 alphabet. -/
def b64DecChar (c : Char) : Option Nat :=
  let n := c.toNat
  if 65 ≤ n ∧ n ≤ 90 then some (n - 65)
  else if 97 ≤ n ∧ n ≤ 122 then some (26 + (n - 97))
  else if 48 ≤ n ∧ n ≤ 57 then some (52 + (n - 48))
  else if n = 43 then some 62
  else if n = 47 then some 63
  else none

/-- Standard base64 encoding with `=` padding (`base64::encode`). -/
def b64Encode : List Nat → List Char
  | [] => []
  | [a] => [b64Char (a / 4), b64Char (a % 4 * 16), '=', '=']
  | [a, b] => [b64Char (a / 4), b64Char (a % 4 * 16 + b / 16), b64Char (b % 16 * 4), '=']
  | a :: b :: c :: rest =>
    b64Char (a / 4) :: b64Char (a % 4 * 16 + b / 16) :: b64Char (b % 16 * 4 + c / 64) ::
      b64Char (c % 64) :: b64Encode rest

/-- Decoding of a final base64 quantum, handling `=` padding. -/
def b64DecodeFinal (c1 c2 c3 c4 : Char) : Option (List Nat) :=
  if c3 = '=' ∧ c4 = '=' then do
    let x1 ← b64DecChar c1
    let x2 ← b64DecChar c2
    pure [x1 * 4 + x2 / 16]
  else if c4 = '=' then do
    let x1 ← b64DecChar c1
    let x2 ← b64DecChar c2
    let x3 ← b64DecChar c3
    pure [x1 * 4 + x2 / 16, x2 % 16 * 16 + x3 / 4]
  else do
    let x1 ← b64DecChar c1
    let x2 ← b64DecChar c2
    let x3 ← b64DecChar c3
    let x4 ← b64DecChar c4
    pure [x1 * 4 + x2 / 16, x2 % 16 * 16 + x3 / 4, x3 % 4 * 64 + x4]

/-- Standard base64 decoding with `=` padding (`base64::decode`). -/
def b64Decode : List Char → Option (List Nat)
  | [] => some []
  | c1 :: c2 :: c3 :: c4 :: rest =>
    if rest.isEmpty then b64DecodeFinal c1 c2 c3 c4
    else do
      let x1 ← b64DecChar c1
      let x2 ← b64DecChar c2
      let x3 ← b64DecChar c3
      let x4 ← b64DecChar c4
      let tl ← b64Decode rest
      pure ((x1 * 4 + x2 / 16) :: (x2 % 16 * 16 + x3 / 4) :: (x3 % 4 * 64 + x4) :: tl)
  | _ => none

/-- The fragment of JSON the webhook payload serialization uses: null,
strings, and objects. -/
inductive Json where
  | null
  | str (s : List Char)
  | obj (fields : List (String × Json))

/-- Embedding of `enum Site` (fuzzysearch-common/src/types.rs): a plain
serde unit-variant enum, serialized as the variant name. -/
inductive Site where
  | furAffinity
  | e621
  | weasyl
deriving DecidableEq, Repr

/-- Embedding of `WebHookData` (fuzzysearch-common/src/faktory.rs): `site_id`
is an `i64`, `file_sha256` an optional byte vector, `hash` an optional
8-byte array (bytes are naturals below 256; the 8-byte length is an
invariant of defined payloads). -/
structure WebHookData where
  site : Site
  site_id : Int
  artist : List Char
  file_url : List Char
  file_sha256 : Option (List Nat)
  hash : Option (List Nat)
deriving DecidableEq, Repr

/-- Serde serialization of a `Site` value: the variant name. -/
def siteToJson : Site → Json
  | .furAffinity => .str ("FurAffinity").data
  | .e621 => .str ("E621").data
  | .weasyl => .str ("Weasyl").data

/-- Serde deserialization of a `Site` value. -/
def siteFromJson : Json → Option Site
  | .str s =>
    if s = ("FurAffinity").data then some .furAffinity
    else if s = ("E621").data then some .e621
    else if s = ("Weasyl").data then some .weasyl
    else none
  | _ => none

/-- The `b64_vec`/`b64_u8` serializers: a base64 string when present, JSON
null when absent (`serializer.serialize_none()`). -/
def optBytesToJson : Option (List Nat) → Json
  | some bs => .str (b64Encode bs)
  | none => .null

/-- The object fields serde emits for a `WebHookData`, in declaration
order. -/
def encodeFields (w : WebHookData) : List (String × Json) :=
  [(("site"), siteToJson w.site),
   (("site_id"), .str (Text.intDecimal w.site_id)),
   (("artist"), .str w.artist),
   (("file_url"), .str w.file_url),
   (("file_sha256"), optBytesToJson w.file_sha256),
   (("hash"), optBytesToJson w.hash)]

/-- Serde serialization of a `WebHookData`. -/
def encodeWebHookData (w : WebHookData) : Json := .obj (encodeFields w)

/-- Serialization shape the claim describes for absent optional fields:
`file_sha256` and `hash` are omitted from the object.  This definition
follows the claim's words and is compared against `encodeWebHookData`. -/
def claimedEncodeAbsent (w : WebHookData) : Json :=
  .obj [(("site"), siteToJson w.site),
    (("site_id"), .str (Text.intDecimal w.site_id)),
    (("artist"), .str w.artist),
    (("file_url"), .str w.file_url)]

/-- Object field access of the deserializer. -/
def getField (fs : List (String × Json)) (name : String) : Option Json :=
  match fs with
  | [] => none
  | (n, v) :: rest => if n = name then some v else getField rest name

/-- The `b64_vec` deserializer: `Option<String>` then base64 decode. -/
def decodeOptBytes : Json → Option (Option (List Nat))
  | .null => some none
  | .str s => (b64Decode s).map some
  | _ => none

/-- The `b64_u8` deserializer for `[u8; 8]`: `Option<String>`, base64 decode,
then `try_into` an 8-byte array. -/
def decodeOptBytes8 : Json → Option (Option (List Nat))
  | .null => some none
  | .str s =>
    match b64Decode s with
    | some bs => if bs.length = 8 then some (some bs) else none
    | none => none
  | _ => none

/-- Plain string field deserialization. -/
def decodeStr : Json → Option (List Char)
  | .str s => some s
  | _ => none

/-- The `string` module deserializer for `site_id`: a JSON string parsed with
`i64::from_str`. -/
def decodeI64String : Json → Option Int
  | .str s => Text.parseI64 s
  | _ => none

/-- Serde deserialization of a `WebHookData`. -/
def decodeWebHookData (j : Json) : Option WebHookData :=
  match j with
  | .obj fs => do
    let site ← (getField fs ("site")).bind siteFromJson
    let sid ← (getField fs ("site_id")).bind decodeI64String
    let artist ← (getField fs ("artist")).bind decodeStr
    let furl ← (getField fs ("file_url")).bind decodeStr
    let sha ← (getField fs ("file_sha256")).bind decodeOptBytes
    let hsh ← (getField fs ("hash")).bind decodeOptBytes8
    pure ⟨site, sid, artist, furl, sha, hsh⟩
  | _ => none

end Serial

/-! ## Webhook fan-out (src/fuzzysearch-webhook/src/main.rs and
fuzzysearch-common/src/faktory.rs)

The worker builds a blocking HTTP client with a 3-second timeout, registers
a `new_submission` handler that enqueues one `send_webhook` job per
subscribed endpoint, and a `send_webhook` handler that POSTs the payload as
JSON and propagates `error_for_status()` failures (reqwest:
`error_for_status` errors exactly on 4xx/5xx statuses).  `Job::new` of the
faktory crate is external code; the fields the repository never sets
(`retry`, `reserve_for`) are modelled as `none`, standing for the crate's
defaults (25 retries / 600 s reservation — in particular not 3 / 30).
`FaktoryClient::queue_webhook` sets `retry = Some(3)` and
`reserve_for = Some(30)` on the `new_submission` job it enqueues.
-/

namespace Webhook

/-- A job argument: the opaque serialized payload or a JSON string. -/
inductive JobArg where
  | payload (v : Nat)
  | str (s : String)
deriving DecidableEq, Repr

/-- The faktory job fields the repository touches.  `retry`/`reserveFor` are
`none` unless the repository code sets them (the crate then applies its own
defaults, which are 25 and 600, not 3 and 30). -/
structure Job where
  kind : String
  queue : String
  args : List JobArg
  retry : Option Int
  reserveFor : Option Int
deriving DecidableEq, Repr

/-- Embedding of `faktory::Job::new`: fresh job on the default queue with no
explicit retry or reservation settings. -/
def Job.new (kind : String) (args : List JobArg) : Job :=
  { kind := kind, queue := ("default"), args := args, retry := none, reserveFor := none }

/-- Embedding of `Job::on_queue`. -/
def Job.on_queue (j : Job) (q : String) : Job := { j with queue := q }

/-- Embedding of `FaktoryClient::queue_webhook`
(fuzzysearch-common/src/faktory.rs): a `new_submission` job on queue
`fuzzysearch_webhook` with `retry = Some(3)` and `reserve_for = Some(30)`. -/
def queue_webhook (data : JobArg) : Job :=
  let job := (Job.new ("new_submission") [data]).on_queue ("fuzzysearch_webhook")
  { job with retry := some 3, reserveFor := some 30 }

/-- Embedding of the `new_submission` handler: for each subscribed endpoint,
enqueue a `send_webhook` job carrying the payload and the endpoint, on queue
`fuzzysearch_webhook`, with no explicit retry or reservation settings. -/
def new_submission_jobs (endpoints : List String) (data : JobArg) : List Job :=
  endpoints.map (fun e => (Job.new ("send_webhook") [data, .str e]).on_queue
    ("fuzzysearch_webhook"))

/-- The blocking HTTP client the worker builds in `main`: 3-second timeout. -/
structure HttpClient where
  timeoutSecs : Nat
deriving DecidableEq, Repr

def webhookClient : HttpClient := { timeoutSecs := 3 }

/-- The POST request the `send_webhook` handler issues: the payload as the
JSON body, to the endpoint from the job's second argument, through
`webhookClient`. -/
structure HttpRequest where
  url : String
  jsonBody : JobArg
  timeoutSecs : Nat
deriving DecidableEq, Repr

def send_webhook_request (data : JobArg) (endpoint : String) : HttpRequest :=
  { url := endpoint, jsonBody := data, timeoutSecs := webhookClient.timeoutSecs }

/-- Outcome of the `send_webhook` handler, given the final HTTP response
status (`none` = transport error / timeout): `?` propagates transport
errors, `error_for_status()?` fails on 4xx/5xx.  A returned error marks the
job failed, which triggers the queue's job-level retry. -/
def send_webhook_result (resp : Option Nat) : Except Unit Unit :=
  match resp with
  | none => .error ()
  | some status =>
    if 400 ≤ status ∧ status ≤ 599 then .error () else .ok ()

end Webhook
end Fuzzysearch

/-! ## Claim theorems -/

/-! ## Theorems -/

namespace Fuzzysearch
namespace IngestFA

theorem mem_generateSeries {lo hi x : Int} :
    x ∈ generateSeries lo hi ↔ lo ≤ x ∧ x ≤ hi := by
  simp only [generateSeries, List.mem_map, List.mem_range]
  constructor
  · rintro ⟨i, hi', rfl⟩
    omega
  · rintro ⟨h1, h2⟩
    exact ⟨(x - lo).toNat, by omega, by omega⟩

theorem sorted_generateSeries (lo hi : Int) :
    (generateSeries lo hi).Pairwise (· < ·) := by
  unfold generateSeries
  apply List.Pairwise.map (R := fun a b : Nat => a < b)
  · intro a b hab; omega
  · exact List.pairwise_lt_range _

/-- Characterisation of `List.max?` on `Int` lists. -/
theorem not_contains_iff (l : List Int) (x : Int) : (!l.contains x) = true ↔ x ∉ l := by
  simp

theorem max?_int_eq_some_iff {l : List Int} {m : Int} :
    l.max? = some m ↔ m ∈ l ∧ ∀ b ∈ l, b ≤ m := by
  refine @List.max?_eq_some_iff Int m _ _ ⟨fun {_ _} => le_antisymm⟩ ?_ ?_ ?_ l
  · exact fun a => le_refl a
  · exact fun a b => max_choice a b
  · exact fun a b c => max_le_iff

end IngestFA
namespace Refresh

theorem tdiv_nonpos_of_neg {a : Int} (h : a < 0) : a.tdiv 86400 ≤ 0 := by
  match a, h with
  | Int.negSucc m, _ =>
    show (Int.negSucc m).tdiv (Int.ofNat 86400) ≤ 0
    rw [Int.tdiv]
    have : (0 : Int) ≤ Int.ofNat (Nat.succ m / 86400) := Int.ofNat_nonneg _
    omega

end Refresh
namespace HashIndex

theorem popCountAux_zero_iff : ∀ fuel n, n ≤ fuel → (popCountAux fuel n = 0 ↔ n = 0) := by
  intro fuel
  induction fuel with
  | zero =>
    intro n hn
    have h0 : n = 0 := by omega
    subst h0
    simp [popCountAux]
  | succ fuel ih =>
    intro n hn
    by_cases h : n = 0
    · subst h; simp [popCountAux]
    · rw [popCountAux, if_neg h]
      constructor
      · intro hsum
        have h2 : popCountAux fuel (n / 2) = 0 := by omega
        have h3 : n / 2 = 0 := (ih (n / 2) (by omega)).mp h2
        omega
      · intro h0; exact absurd h0 h

theorem popCount_eq_zero_iff (n : Nat) : popCount n = 0 ↔ n = 0 :=
  popCountAux_zero_iff n n le_rfl

theorem dist_eq_zero_iff {a b : Nat} : dist a b = 0 ↔ a = b := by
  rw [dist, popCount_eq_zero_iff, Nat.xor_eq_zero]

theorem dist_self (a : Nat) : dist a a = 0 := dist_eq_zero_iff.mpr rfl

theorem length_keys_le_of_mem {p : Nat × BKNode} {c : List (Nat × BKNode)}
    (hmem : p ∈ c) : p.2.keys.length ≤ (BKNode.keysChildren c).length := by
  induction c with
  | nil => cases hmem
  | cons q rest ih =>
    rcases q with ⟨e, t⟩
    rw [BKNode.keysChildren]
    rcases List.mem_cons.mp hmem with h | h
    · subst h
      simp
    · have := ih h
      simp only [List.length_append]
      omega

theorem BKNode.keys_length_pos (t : BKNode) : 0 < t.keys.length := by
  rcases t with ⟨k, c⟩
  rw [BKNode.keys]
  simp

/-- Strong-induction principle for BK-tree nodes, descending into children. -/
theorem BKNode.my_ind (P : BKNode → Prop)
    (h : ∀ k c, (∀ p ∈ c, P p.2) → P (.node k c)) : ∀ t, P t := by
  have main : ∀ n t, t.keys.length ≤ n → P t := by
    intro n
    induction n with
    | zero =>
      intro t ht
      have := t.keys_length_pos
      omega
    | succ n ih =>
      intro t ht
      rcases t with ⟨k, c⟩
      refine h k c ?_
      intro p hp
      have h1 := length_keys_le_of_mem hp
      rw [BKNode.keys] at ht
      simp only [List.length_cons] at ht
      exact ih _ (by omega)
  intro t
  exact main t.keys.length t le_rfl

theorem keysChildren_addChildren_perm {c : List (Nat × BKNode)}
    (ihs : ∀ p ∈ c, ∀ y, (BKNode.add y p.2).keys.Perm (y :: p.2.keys)) (x d : Nat) :
    (BKNode.keysChildren (BKNode.addChildren x d c)).Perm (x :: BKNode.keysChildren c) := by
  induction c with
  | nil =>
    simp [BKNode.addChildren, BKNode.keysChildren, BKNode.keys]
  | cons q rest ih =>
    rcases q with ⟨e, t⟩
    rw [BKNode.addChildren]
    by_cases he : e = d
    · rw [if_pos he]
      rw [BKNode.keysChildren, BKNode.keysChildren]
      have hperm := ihs (e, t) (List.mem_cons_self _ _) x
      exact hperm.append_right _
    · rw [if_neg he]
      rw [BKNode.keysChildren, BKNode.keysChildren]
      have hrest := ih (fun p hp y => ihs p (List.mem_cons_of_mem _ hp) y)
      exact (hrest.append_left _).trans List.perm_middle

/-- Inserting a key adds exactly that key to the stored multiset. -/
theorem BKNode.keys_add_perm : ∀ (t : BKNode) (x : Nat),
    (BKNode.add x t).keys.Perm (x :: t.keys) := by
  refine BKNode.my_ind (fun t => ∀ x, (BKNode.add x t).keys.Perm (x :: t.keys)) ?_
  intro k c ihs x
  rw [BKNode.add, BKNode.keys, BKNode.keys]
  have h1 := keysChildren_addChildren_perm ihs x (dist k x)
  exact (h1.cons k).trans (List.Perm.swap _ _ _)

theorem wfChildren_addChildren {k : Nat} {c : List (Nat × BKNode)}
    (ihs : ∀ p ∈ c, ∀ y, p.2.wf = true → (BKNode.add y p.2).wf = true)
    (hwf : BKNode.wfChildren k c = true) (x : Nat) :
    BKNode.wfChildren k (BKNode.addChildren x (dist k x) c) = true := by
  induction c with
  | nil =>
    rw [BKNode.addChildren, BKNode.wfChildren, BKNode.wfChildren, BKNode.wf,
      BKNode.wfChildren, BKNode.keys, BKNode.keysChildren]
    simp
  | cons q rest ih =>
    rcases q with ⟨e, t⟩
    rw [BKNode.wfChildren, Bool.and_eq_true, Bool.and_eq_true] at hwf
    obtain ⟨⟨hall, hwt⟩, hrest⟩ := hwf
    rw [BKNode.addChildren]
    by_cases he : e = dist k x
    · rw [if_pos he]
      rw [BKNode.wfChildren, Bool.and_eq_true, Bool.and_eq_true]
      refine ⟨⟨?_, ihs (e, t) (List.mem_cons_self _ _) x hwt⟩, hrest⟩
      rw [List.all_eq_true]
      intro y hy
      have hperm := BKNode.keys_add_perm t x
      rcases List.mem_cons.mp (hperm.mem_iff.mp hy) with h | h
      · subst h
        exact beq_iff_eq.mpr he.symm
      · exact List.all_eq_true.mp hall y h
    · rw [if_neg he]
      rw [BKNode.wfChildren, Bool.and_eq_true, Bool.and_eq_true]
      exact ⟨⟨hall, hwt⟩, ih (fun p hp y => ihs p (List.mem_cons_of_mem _ hp) y) hrest⟩

/-- Insertion preserves the BK-tree edge invariant. -/
theorem BKNode.wf_add : ∀ (t : BKNode) (x : Nat),
    t.wf = true → (BKNode.add x t).wf = true := by
  refine BKNode.my_ind (fun t => ∀ x, t.wf = true → (BKNode.add x t).wf = true) ?_
  intro k c ihs x hwf
  rw [BKNode.wf] at hwf
  rw [BKNode.add, BKNode.wf]
  exact wfChildren_addChildren ihs hwf x

theorem findChildren_subset_keys {q r d : Nat} {c : List (Nat × BKNode)}
    (ihs : ∀ p ∈ c, ∀ y, y ∈ BKNode.find q r p.2 → y ∈ p.2.keys) :
    ∀ y, y ∈ BKNode.findChildren q r d c → y ∈ BKNode.keysChildren c := by
  induction c with
  | nil =>
    intro y hy
    rw [BKNode.findChildren] at hy
    cases hy
  | cons p rest ih =>
    rcases p with ⟨e, t⟩
    intro y hy
    rw [BKNode.findChildren] at hy
    rw [BKNode.keysChildren]
    rcases List.mem_append.mp hy with h | h
    · by_cases hc : d - r ≤ e ∧ e ≤ d + r
      · rw [if_pos hc] at h
        exact List.mem_append.mpr (Or.inl (ihs (e, t) (List.mem_cons_self _ _) y h))
      · rw [if_neg hc] at h
        cases h
    · exact List.mem_append.mpr
        (Or.inr (ih (fun p hp => ihs p (List.mem_cons_of_mem _ hp)) y h))

/-- Everything a search reports is stored in the tree. -/
theorem BKNode.find_subset_keys : ∀ (t : BKNode) (q r y : Nat),
    y ∈ BKNode.find q r t → y ∈ t.keys := by
  refine BKNode.my_ind (fun t => ∀ q r y, y ∈ BKNode.find q r t → y ∈ t.keys) ?_
  intro k c ihs q r y hy
  simp only [BKNode.find] at hy
  rw [BKNode.keys]
  rcases List.mem_append.mp hy with h | h
  · by_cases hd : dist k q ≤ r
    · rw [if_pos hd] at h
      rcases List.mem_singleton.mp h with rfl
      exact List.mem_cons_self _ _
    · rw [if_neg hd] at h
      cases h
  · exact List.mem_cons_of_mem _
      (findChildren_subset_keys (fun p hp y' => ihs p hp q r y') y h)

/-- A radius-0 search reports only the query itself. -/
theorem BKNode.find_zero_sound : ∀ (t : BKNode) (q y : Nat),
    y ∈ BKNode.find q 0 t → y = q := by
  refine BKNode.my_ind (fun t => ∀ q y, y ∈ BKNode.find q 0 t → y = q) ?_
  intro k c ihs q y hy
  simp only [BKNode.find] at hy
  rcases List.mem_append.mp hy with h | h
  · by_cases hd : dist k q ≤ 0
    · rw [if_pos hd] at h
      rcases List.mem_singleton.mp h with rfl
      exact dist_eq_zero_iff.mp (by omega)
    · rw [if_neg hd] at h
      cases h
  · -- recurse through the children
    clear hy
    induction c with
    | nil =>
      rw [BKNode.findChildren] at h
      cases h
    | cons p rest ih =>
      rcases p with ⟨e, t⟩
      rw [BKNode.findChildren] at h
      rcases List.mem_append.mp h with h1 | h1
      · by_cases hc : dist k q - 0 ≤ e ∧ e ≤ dist k q + 0
        · rw [if_pos hc] at h1
          exact ihs (e, t) (List.mem_cons_self _ _) q y h1
        · rw [if_neg hc] at h1
          cases h1
      · exact ih (fun p hp => ihs p (List.mem_cons_of_mem _ hp)) h1

theorem findChildren_zero_complete {k q : Nat} {c : List (Nat × BKNode)}
    (ihs : ∀ p ∈ c, ∀ q', p.2.wf = true → q' ∈ p.2.keys → q' ∈ BKNode.find q' 0 p.2)
    (hwf : BKNode.wfChildren k c = true) (hmem : q ∈ BKNode.keysChildren c) :
    q ∈ BKNode.findChildren q 0 (dist k q) c := by
  induction c with
  | nil =>
    rw [BKNode.keysChildren] at hmem
    cases hmem
  | cons p rest ih =>
    rcases p with ⟨e, t⟩
    rw [BKNode.wfChildren, Bool.and_eq_true, Bool.and_eq_true] at hwf
    obtain ⟨⟨hall, hwt⟩, hrest⟩ := hwf
    rw [BKNode.keysChildren] at hmem
    rw [BKNode.findChildren]
    rcases List.mem_append.mp hmem with h1 | h1
    · have he : dist k q = e := beq_iff_eq.mp (List.all_eq_true.mp hall q h1)
      have hc : dist k q - 0 ≤ e ∧ e ≤ dist k q + 0 := by omega
      rw [if_pos hc]
      exact List.mem_append.mpr
        (Or.inl (ihs (e, t) (List.mem_cons_self _ _) q hwt h1))
    · exact List.mem_append.mpr
        (Or.inr (ih (fun p hp => ihs p (List.mem_cons_of_mem _ hp)) hrest h1))

/-- A radius-0 search finds a stored key equal to the query (completeness,
using the edge invariant). -/
theorem BKNode.find_zero_complete : ∀ (t : BKNode) (q : Nat),
    t.wf = true → q ∈ t.keys → q ∈ BKNode.find q 0 t := by
  refine BKNode.my_ind (fun t => ∀ q, t.wf = true → q ∈ t.keys → q ∈ BKNode.find q 0 t) ?_
  intro k c ihs q hwf hq
  rw [BKNode.wf] at hwf
  rw [BKNode.keys] at hq
  simp only [BKNode.find]
  rcases List.mem_cons.mp hq with rfl | hmem
  · refine List.mem_append.mpr (Or.inl ?_)
    rw [if_pos (by rw [dist_self])]
    exact List.mem_singleton.mpr rfl
  · exact List.mem_append.mpr (Or.inr (findChildren_zero_complete ihs hwf hmem))

/-- Correctness of `find_exact` on well-formed trees: it hits exactly when the
queried key is stored. -/
theorem findExact_isSome_iff {t : BKTree} {q : Nat} (hwf : treeWf t = true) :
    (findExact t q).isSome = true ↔ q ∈ treeKeys t := by
  rcases t with _ | root
  · simp [findExact, treeFind, treeKeys]
  · rw [treeWf] at hwf
    rw [findExact, treeFind, treeKeys]
    constructor
    · intro hs
      cases hfind : BKNode.find q 0 root with
      | nil => rw [hfind] at hs; simp at hs
      | cons y rest =>
        have hy : y ∈ BKNode.find q 0 root := by
          rw [hfind]; exact List.mem_cons_self _ _
        have hyq := BKNode.find_zero_sound root q y hy
        have hsub := BKNode.find_subset_keys root q 0 y hy
        rw [hyq] at hsub
        exact hsub
    · intro h
      have hmem := BKNode.find_zero_complete root q hwf h
      cases hfind : BKNode.find q 0 root with
      | nil => rw [hfind] at hmem; cases hmem
      | cons y rest => rfl

theorem treeWf_treeAdd {t : BKTree} (hwf : treeWf t = true) (x : Nat) :
    treeWf (treeAdd t x) = true := by
  rcases t with _ | root
  · simp [treeAdd, treeWf, BKNode.wf, BKNode.wfChildren]
  · rw [treeWf] at hwf
    rw [treeAdd, treeWf]
    exact BKNode.wf_add root x hwf

theorem treeKeys_treeAdd_perm (t : BKTree) (x : Nat) :
    (treeKeys (treeAdd t x)).Perm (x :: treeKeys t) := by
  rcases t with _ | root
  · simp [treeAdd, treeKeys, BKNode.keys, BKNode.keysChildren]
  · rw [treeAdd, treeKeys, treeKeys]
    exact BKNode.keys_add_perm root x

/-- Guarded insertion preserves well-formedness, preserves key distinctness,
and is a no-op when the key is already stored. -/
theorem hashAdded_invariants {t : BKTree} (hwf : treeWf t = true)
    (hnd : (treeKeys t).Nodup) (h : Int) :
    treeWf (hashAdded t h) = true ∧ (treeKeys (hashAdded t h)).Nodup ∧
      nodeOfHash h ∈ treeKeys (hashAdded t h) ∧
      (nodeOfHash h ∈ treeKeys t → hashAdded t h = t) := by
  rw [hashAdded]
  by_cases hp : (findExact t (nodeOfHash h)).isSome = true
  · rw [if_pos hp]
    exact ⟨hwf, hnd, (findExact_isSome_iff hwf).mp hp, fun _ => rfl⟩
  · rw [if_neg hp]
    have hnotin : nodeOfHash h ∉ treeKeys t := fun hmem =>
      hp ((findExact_isSome_iff hwf).mpr hmem)
    have hperm := treeKeys_treeAdd_perm t (nodeOfHash h)
    refine ⟨treeWf_treeAdd hwf _, ?_, ?_, fun hmem => absurd hmem hnotin⟩
    · exact hperm.nodup_iff.mpr (List.nodup_cons.mpr ⟨hnotin, hnd⟩)
    · exact hperm.mem_iff.mpr (List.mem_cons_self _ _)

/-- The bulk build of `create_tree` produces a well-formed, duplicate-free
tree. -/
theorem createTree_invariants (rows : List (Option Int)) :
    treeWf (createTree rows) = true ∧ (treeKeys (createTree rows)).Nodup := by
  rw [createTree]
  suffices h : ∀ (t : BKTree), treeWf t = true → (treeKeys t).Nodup →
      treeWf (rows.foldl
        (fun t row => match row with | none => t | some h => hashAdded t h) t) = true ∧
      (treeKeys (rows.foldl
        (fun t row => match row with | none => t | some h => hashAdded t h) t)).Nodup by
    exact h none (by rfl) List.nodup_nil
  induction rows with
  | nil => intro t h1 h2; exact ⟨h1, h2⟩
  | cons row rest ih =>
    intro t h1 h2
    rcases row with _ | hsh
    · exact ih t h1 h2
    · obtain ⟨hw, hn, _, _⟩ := hashAdded_invariants h1 h2 hsh
      exact ih _ hw hn

end HashIndex
namespace Text

theorem splitComma_ne_nil (cs : List Char) : splitComma cs ≠ [] := by
  cases cs with
  | nil => simp [splitComma]
  | cons c rest =>
    rw [splitComma]
    cases splitComma rest with
    | nil => simp
    | cons cur rs =>
      by_cases h : c = ','
      · simp [h]
      · simp [h]

theorem splitComma_no_comma {e : List Char} (he : ',' ∉ e) : splitComma e = [e] := by
  induction e with
  | nil => rw [splitComma]
  | cons c cs ih =>
    have hc : c ≠ ',' := fun h => he (h ▸ List.mem_cons_self _ _)
    have hcs : ',' ∉ cs := fun h => he (List.mem_cons_of_mem _ h)
    rw [splitComma, ih hcs]
    simp [hc]

theorem splitComma_append {e : List Char} (he : ',' ∉ e) (l : List Char) :
    splitComma (e ++ ',' :: l) = e :: splitComma l := by
  induction e with
  | nil =>
    rw [List.nil_append, splitComma]
    cases h : splitComma l with
    | nil => exact absurd h (splitComma_ne_nil l)
    | cons cur rs => simp
  | cons c rest ih =>
    have hc : c ≠ ',' := fun h => he (h ▸ List.mem_cons_self _ _)
    have hrest : ',' ∉ rest := fun h => he (List.mem_cons_of_mem _ h)
    rw [List.cons_append, splitComma, ih hrest]
    simp [hc]

theorem splitComma_joinComma : ∀ (es : List (List Char)),
    es ≠ [] → (∀ e ∈ es, ',' ∉ e) → splitComma (joinComma es) = es := by
  intro es
  induction es with
  | nil => intro h _; exact absurd rfl h
  | cons e rest ih =>
    intro _ hfree
    cases rest with
    | nil =>
      rw [joinComma]
      exact splitComma_no_comma (hfree e (List.mem_cons_self _ _))
    | cons e2 rest2 =>
      rw [joinComma, splitComma_append (hfree e (List.mem_cons_self _ _))]
      rw [ih (List.cons_ne_nil _ _) (fun e' he' => hfree e' (List.mem_cons_of_mem _ he'))]

theorem digitsVal_append (l : List Char) (c : Char) :
    digitsVal (l ++ [c]) = digitsVal l * 10 + (c.toNat - 48) := by
  rw [digitsVal, digitsVal, List.foldl_append]
  rfl

theorem digitChar_toNat {r : Nat} (hr : r < 10) : (Char.ofNat (48 + r)).toNat = 48 + r := by
  interval_cases r <;> decide

theorem digitChar_isDigit {r : Nat} (hr : r < 10) : (Char.ofNat (48 + r)).isDigit = true := by
  interval_cases r <;> decide

theorem digitChar_ne {r : Nat} (hr : r < 10) :
    '-' ≠ Char.ofNat (48 + r) ∧ '+' ≠ Char.ofNat (48 + r) ∧ ',' ≠ Char.ofNat (48 + r) := by
  interval_cases r <;> exact ⟨by decide, by decide, by decide⟩

theorem natDecimalAux_spec : ∀ (fuel n : Nat), 0 < fuel → n < 10 ^ fuel →
    digitsVal (natDecimalAux fuel n) = n ∧
    (natDecimalAux fuel n).all Char.isDigit = true ∧
    natDecimalAux fuel n ≠ [] ∧ '-' ∉ natDecimalAux fuel n ∧
    '+' ∉ natDecimalAux fuel n ∧ ',' ∉ natDecimalAux fuel n := by
  intro fuel
  induction fuel with
  | zero => intro n h0; omega
  | succ fuel ih =>
    intro n _ hn
    rw [natDecimalAux]
    by_cases h : n < 10
    · rw [if_pos h]
      have hc := digitChar_toNat h
      have ⟨hne1, hne2, hne3⟩ := digitChar_ne h
      refine ⟨?_, ?_, by simp, ?_, ?_, ?_⟩
      · show digitsVal [Char.ofNat (48 + n)] = n
        rw [digitsVal, List.foldl_cons, List.foldl_nil, hc]
        omega
      · rw [List.all_eq_true]
        intro c hcmem
        rcases List.mem_singleton.mp hcmem with rfl
        exact digitChar_isDigit h
      all_goals
        intro hmem
        first
        | exact hne1 (List.mem_singleton.mp hmem)
        | exact hne2 (List.mem_singleton.mp hmem)
        | exact hne3 (List.mem_singleton.mp hmem)
    · rw [if_neg h]
      have hfuel : 0 < fuel := by
        rcases Nat.eq_zero_or_pos fuel with hf | hf
        · subst hf
          simp only [pow_succ, pow_zero, one_mul] at hn
          omega
        · exact hf
      have hdiv : n / 10 < 10 ^ fuel := by
        rw [pow_succ] at hn
        omega
      obtain ⟨hval, hdig, hne, hm1, hm2, hm3⟩ := ih (n / 10) hfuel hdiv
      have h10 : n % 10 < 10 := Nat.mod_lt _ (by omega)
      have hc := digitChar_toNat h10
      have ⟨hne1, hne2, hne3⟩ := digitChar_ne h10
      refine ⟨?_, ?_, by simp, ?_, ?_, ?_⟩
      · rw [digitsVal_append, hval, hc]
        omega
      · rw [List.all_eq_true]
        intro c hcmem
        rcases List.mem_append.mp hcmem with hcm | hcm
        · exact List.all_eq_true.mp hdig c hcm
        · rcases List.mem_singleton.mp hcm with rfl
          exact digitChar_isDigit h10
      all_goals
        intro hmem
        rcases List.mem_append.mp hmem with hcm | hcm
        · first
          | exact hm1 hcm
          | exact hm2 hcm
          | exact hm3 hcm
        · first
          | exact hne1 (List.mem_singleton.mp hcm)
          | exact hne2 (List.mem_singleton.mp hcm)
          | exact hne3 (List.mem_singleton.mp hcm)

theorem natDecimal_spec (n : Nat) :
    digitsVal (natDecimal n) = n ∧ (natDecimal n).all Char.isDigit = true ∧
      natDecimal n ≠ [] ∧ '-' ∉ natDecimal n ∧ '+' ∉ natDecimal n ∧
      ',' ∉ natDecimal n := by
  refine natDecimalAux_spec (n + 1) n (by omega) ?_
  have h2 : 2 ^ (n + 1) ≤ 10 ^ (n + 1) := Nat.pow_le_pow_left (by omega) _
  have h3 : n + 1 < 2 ^ (n + 1) := Nat.lt_two_pow _
  omega

end Text
namespace Api

theorem rlUpsert_count (k : Int × Int × String) (incr : Int) :
    ∀ s : RateState, (rlUpsert k incr s).2 = rlCount s k + incr := by
  intro s
  induction s with
  | nil => rw [rlUpsert, rlCount]; omega
  | cons p rest ih =>
    rcases p with ⟨k', c⟩
    rw [rlUpsert, rlCount]
    by_cases h : k' = k
    · simp [h]
    · simp only [if_neg h]
      exact ih

theorem rlCount_rlUpsert_same (k : Int × Int × String) (incr : Int) :
    ∀ s : RateState, rlCount (rlUpsert k incr s).1 k = rlCount s k + incr := by
  intro s
  induction s with
  | nil => rw [rlUpsert, rlCount, rlCount]; simp
  | cons p rest ih =>
    rcases p with ⟨k', c⟩
    rw [rlUpsert]
    by_cases h : k' = k
    · simp only [if_pos h]
      rw [rlCount, rlCount, if_pos h, if_pos h]
    · simp only [if_neg h]
      rw [rlCount, rlCount, if_neg h, if_neg h]
      exact ih

theorem rlCount_rlUpsert_other (k k2 : Int × Int × String) (incr : Int)
    (hne : k2 ≠ k) :
    ∀ s : RateState, rlCount (rlUpsert k incr s).1 k2 = rlCount s k2 := by
  intro s
  induction s with
  | nil =>
    have h2 : k ≠ k2 := fun h => hne h.symm
    simp [rlUpsert, rlCount, h2]
  | cons p rest ih =>
    rcases p with ⟨k', c⟩
    rw [rlUpsert]
    by_cases h : k' = k
    · simp only [if_pos h]
      rw [rlCount, rlCount]
      have h3 : k' ≠ k2 := fun hh => hne (by rw [← hh, h])
      rw [if_neg h3, if_neg h3]
    · simp only [if_neg h]
      rw [rlCount, rlCount]
      by_cases h2 : k' = k2
      · simp [h2]
      · simp only [if_neg h2]
        exact ih

theorem rateLimitStep_spec (s : RateState) (key : UserApiKey) (limit : Int)
    (bucket : String) (incr now : Int) :
    (rateLimitStep s key limit bucket incr now).1 =
      (rlUpsert (key.id, now - now.tmod 60, bucket) incr s).1 ∧
    (rlCount s (key.id, now - now.tmod 60, bucket) + incr > limit →
      (rateLimitStep s key limit bucket incr now).2 = .error (.rateLimited bucket)) ∧
    (rlCount s (key.id, now - now.tmod 60, bucket) + incr ≤ limit →
      (rateLimitStep s key limit bucket incr now).2 =
        .ok (limit - (rlCount s (key.id, now - now.tmod 60, bucket) + incr), limit)) := by
  have hcnt := rlUpsert_count (key.id, now - now.tmod 60, bucket) incr s
  unfold rateLimitStep update_rate_limit incrementRateLimit
  simp only
  rcases hr : rlUpsert (key.id, now - now.tmod 60, bucket) incr s with ⟨s', count⟩
  rw [hr] at hcnt
  simp only at hcnt
  subst hcnt
  by_cases h : rlCount s (key.id, now - now.tmod 60, bucket) + incr > limit
  · rw [if_pos h]
    exact ⟨rfl, fun _ => rfl, fun h2 => by omega⟩
  · rw [if_neg h]
    exact ⟨rfl, fun h2 => by omega, fun _ => rfl⟩

/-- A successful rate-limit step, packaged: the updated state and the pair. -/
theorem rateLimitStep_ok (s : RateState) (key : UserApiKey) (limit : Int)
    (bucket : String) (incr now : Int)
    (h : rlCount s (key.id, now - now.tmod 60, bucket) + incr ≤ limit) :
    rateLimitStep s key limit bucket incr now =
      ((rlUpsert (key.id, now - now.tmod 60, bucket) incr s).1,
        .ok (limit - (rlCount s (key.id, now - now.tmod 60, bucket) + incr), limit)) := by
  obtain ⟨h1, _, h3⟩ := rateLimitStep_spec s key limit bucket incr now
  have h4 := h3 h
  rcases hstep : rateLimitStep s key limit bucket incr now with ⟨sa, ra⟩
  rw [hstep] at h1 h4
  simp only at h1 h4
  rw [h1, h4]

theorem accumulateChunks_spec (cl : Nat) : ∀ (l : List Nat) (buf : Nat),
    (buf + l.sum ≤ 10000000 → accumulateChunks cl l buf = .ok (buf + l.sum)) ∧
    (buf ≤ 10000000 → buf + l.sum > 10000000 →
      accumulateChunks cl l buf = .error (.badRequest (imageTooLargeMsg cl))) := by
  intro l
  induction l with
  | nil =>
    intro buf
    constructor
    · intro _
      rw [accumulateChunks]
      simp
    · intro hb h
      simp only [List.sum_nil] at h
      omega
  | cons chunk rest ih =>
    intro buf
    rw [accumulateChunks]
    constructor
    · intro h
      simp only [List.sum_cons] at h
      rw [if_neg (by omega)]
      have heq := (ih (buf + chunk)).1 (by omega)
      rw [heq]
      congr 1
      simp only [List.sum_cons]
      omega
    · intro hb h
      simp only [List.sum_cons] at h
      by_cases hc : buf + chunk > 10000000
      · rw [if_pos hc]
      · rw [if_neg hc]
        exact (ih (buf + chunk)).2 (by omega) (by omega)

/-- Full case analysis of the `/hashes` handler: outcome and final state in
terms of the parsed hashes, the counter state, and the effective distance. -/
theorem hashes_handler_cases (env : SearchEnv) (s : RateState) (key : UserApiKey)
    (now : Int) (hp : List Char) (dp : Option Nat) :
    (rlCount s (key.id, now - now.tmod 60, ("image")) +
        (((Text.splitComma hp).take 10).filterMap Text.parseI64).length >
        key.image_limit →
      hashes_handler env s key now hp dp =
        ((rlUpsert (key.id, now - now.tmod 60, ("image"))
            (((Text.splitComma hp).take 10).filterMap Text.parseI64).length s).1,
          [], .error (.rateLimited ("image")))) ∧
    (rlCount s (key.id, now - now.tmod 60, ("image")) +
        (((Text.splitComma hp).take 10).filterMap Text.parseI64).length ≤
        key.image_limit →
      hashes_handler env s key now hp dp =
        ((rlUpsert (key.id, now - now.tmod 60, ("image"))
            (((Text.splitComma hp).take 10).filterMap Text.parseI64).length s).1,
          if _hq : ((Text.splitComma hp).take 10).filterMap Text.parseI64 = [] then
            ([], .error (.badRequest ("hashes must be provided").data))
          else if dp.getD 3 > 10 then
            ([], .error (.badRequest (("distance too large: ").data ++
              Text.natDecimal (dp.getD 3))))
          else
            ([(((Text.splitComma hp).take 10).filterMap Text.parseI64, dp.getD 3)],
              .ok { results := env.db (indexTriples env
                      (((Text.splitComma hp).take 10).filterMap Text.parseI64) (dp.getD 3))
                    headers := [(("x-rate-limit-total-image"), key.image_limit),
                      (("x-rate-limit-remaining-image"), key.image_limit -
                        (rlCount s (key.id, now - now.tmod 60, ("image")) +
                          (((Text.splitComma hp).take 10).filterMap Text.parseI64).length))] }))) := by
  obtain ⟨hstate, hlim, hok⟩ := rateLimitStep_spec s key key.image_limit ("image")
    (((Text.splitComma hp).take 10).filterMap Text.parseI64).length now
  constructor
  · intro hgt
    have herr := hlim hgt
    rcases hs : rateLimitStep s key key.image_limit ("image")
        (((Text.splitComma hp).take 10).filterMap Text.parseI64).length now with ⟨s1, r1⟩
    rw [hs] at herr hstate
    simp only at herr hstate
    subst herr
    rw [hashes_handler]
    simp only [hs, hstate]
  · intro hle
    have hr := hok hle
    rcases hs : rateLimitStep s key key.image_limit ("image")
        (((Text.splitComma hp).take 10).filterMap Text.parseI64).length now with ⟨s1, r1⟩
    rw [hs] at hr hstate
    simp only at hr hstate
    subst hr
    rw [hashes_handler]
    simp only [hs, hstate]
    by_cases hq : ((Text.splitComma hp).take 10).filterMap Text.parseI64 = []
    · rw [dif_pos hq]
      simp [hq]
    · rw [dif_neg hq]
      have hne : (((Text.splitComma hp).take 10).filterMap Text.parseI64).isEmpty = false := by
        rw [List.isEmpty_eq_false_iff_exists_mem]
        rcases List.exists_mem_of_ne_nil _ hq with ⟨x, hx⟩
        exact ⟨x, hx⟩
      simp only [hne, Bool.false_eq_true, if_false]
      by_cases hd : dp.getD 3 > 10
      · rw [if_pos hd, lookup_hashes, if_pos hd]
      · rw [if_neg hd, lookup_hashes, if_neg hd]

theorem lookup_hashes_le10 (env : SearchEnv) (hs : List Int) (d : Nat)
    (hd : ¬d > 10) :
    lookup_hashes env hs d = ([(hs, d)], .ok (env.db (indexTriples env hs d))) := by
  rw [lookup_hashes, if_neg hd]

theorem imageModeSearch_force (env : SearchEnv) (hs : List Int) :
    imageModeSearch env .force hs = ([(hs, 10)], env.db (indexTriples env hs 10)) := by
  rw [imageModeSearch, if_pos rfl, lookup_hashes_le10 env hs 10 (by decide)]

theorem imageModeSearch_exact (env : SearchEnv) (hs : List Int) :
    imageModeSearch env .exact hs = ([(hs, 0)], env.db (indexTriples env hs 0)) := by
  rw [imageModeSearch, if_neg (by decide), lookup_hashes_le10 env hs 0 (by decide)]
  dsimp only
  rw [if_neg (fun hand => hand.2 rfl)]

theorem imageModeSearch_close_of_ne (env : SearchEnv) (hs : List Int)
    (hne : env.db (indexTriples env hs 0) ≠ []) :
    imageModeSearch env .close hs = ([(hs, 0)], env.db (indexTriples env hs 0)) := by
  rw [imageModeSearch, if_neg (by decide), lookup_hashes_le10 env hs 0 (by decide)]
  dsimp only
  rw [if_neg (fun hand => hne (List.isEmpty_iff.mp hand.1))]

theorem imageModeSearch_close_of_empty (env : SearchEnv) (hs : List Int)
    (he : env.db (indexTriples env hs 0) = []) :
    imageModeSearch env .close hs =
      ([(hs, 0), (hs, 10)], env.db (indexTriples env hs 10)) := by
  rw [imageModeSearch, if_neg (by decide), lookup_hashes_le10 env hs 0 (by decide)]
  dsimp only
  rw [if_pos ⟨by simp [he], by decide⟩, lookup_hashes_le10 env hs 10 (by decide)]
  rfl

theorem byDistance_trans (a b c : HashLookupResult) (hab : byDistance a b = true)
    (hbc : byDistance b c = true) : byDistance a c = true := by
  simp only [byDistance, decide_eq_true_eq] at hab hbc ⊢
  omega

theorem byDistance_total (a b : HashLookupResult) :
    (byDistance a b || byDistance b a) = true := by
  simp only [byDistance, Bool.or_eq_true, decide_eq_true_eq]
  omega

theorem imageTooLargeMsg_head (cl : Nat) :
    (imageTooLargeMsg cl).head? = some 'i' := by
  rw [imageTooLargeMsg]
  rfl

theorem distanceTooLargeMsg_head (d : Nat) :
    ((("distance too large: ").data ++ Text.natDecimal d).head?) = some 'd' := by
  rfl

end Api
namespace Serial

theorem b64DecChar_b64Char : ∀ n < 64, b64DecChar (b64Char n) = some n := by decide

theorem b64Char_ne_eq : ∀ n < 64, b64Char n ≠ '=' := by decide

theorem b64Encode_eq_nil_iff : ∀ l : List Nat, b64Encode l = [] ↔ l = [] := by
  intro l
  match l with
  | [] => simp [b64Encode]
  | [a] => simp [b64Encode]
  | [a, b] => simp [b64Encode]
  | a :: b :: c :: rest => simp [b64Encode]

theorem b64_roundtrip : ∀ (l : List Nat), (∀ b ∈ l, b < 256) →
    b64Decode (b64Encode l) = some l := by
  have main : ∀ (n : Nat) (l : List Nat), l.length ≤ n → (∀ b ∈ l, b < 256) →
      b64Decode (b64Encode l) = some l := by
    intro n
    induction n with
    | zero =>
      intro l hlen _
      have h0 : l = [] := List.eq_nil_of_length_eq_zero (by omega)
      subst h0
      rfl
    | succ n ihn =>
      intro l hlen
      match l, hlen with
      | [], _ =>
        intro _
        rfl
      | [a], _ =>
        intro hb
        have ha : a < 256 := hb a (by simp)
        rw [b64Encode, b64Decode]
        rw [if_pos (by simp), b64DecodeFinal, if_pos ⟨rfl, rfl⟩]
        rw [b64DecChar_b64Char (a / 4) (by omega), b64DecChar_b64Char (a % 4 * 16) (by omega)]
        simp only [Option.bind_eq_bind, Option.some_bind, Option.pure_def]
        have h1 : a / 4 * 4 + a % 4 * 16 / 16 = a := by omega
        rw [h1]
      | [a, b], _ =>
        intro hb
        have ha : a < 256 := hb a (by simp)
        have hb2 : b < 256 := hb b (by simp)
        rw [b64Encode, b64Decode]
        rw [if_pos (by simp), b64DecodeFinal,
          if_neg (fun hand => b64Char_ne_eq (b % 16 * 4) (by omega) hand.1), if_pos rfl]
        rw [b64DecChar_b64Char (a / 4) (by omega),
          b64DecChar_b64Char (a % 4 * 16 + b / 16) (by omega),
          b64DecChar_b64Char (b % 16 * 4) (by omega)]
        simp only [Option.bind_eq_bind, Option.some_bind, Option.pure_def]
        have h1 : a / 4 * 4 + (a % 4 * 16 + b / 16) / 16 = a := by omega
        have h2 : (a % 4 * 16 + b / 16) % 16 * 16 + b % 16 * 4 / 4 = b := by omega
        rw [h1, h2]
      | a :: b :: c :: rest, hlen =>
        intro hb
        have ha : a < 256 := hb a (by simp)
        have hb2 : b < 256 := hb b (by simp)
        have hc : c < 256 := hb c (by simp)
        rw [b64Encode, b64Decode]
        have htl := ihn rest (by
          simp only [List.length_cons] at hlen
          omega) (fun x hx => hb x (by simp [hx]))
        rcases hrest : rest with _ | ⟨r1, rtl⟩
        · subst hrest
          rw [if_pos (by simp [b64Encode]), b64DecodeFinal,
            if_neg (fun hand => b64Char_ne_eq (b % 16 * 4 + c / 64) (by omega) hand.1),
            if_neg (b64Char_ne_eq (c % 64) (by omega))]
          rw [b64DecChar_b64Char (a / 4) (by omega),
            b64DecChar_b64Char (a % 4 * 16 + b / 16) (by omega),
            b64DecChar_b64Char (b % 16 * 4 + c / 64) (by omega),
            b64DecChar_b64Char (c % 64) (by omega)]
          simp only [Option.bind_eq_bind, Option.some_bind, Option.pure_def]
          have h1 : a / 4 * 4 + (a % 4 * 16 + b / 16) / 16 = a := by omega
          have h2 : (a % 4 * 16 + b / 16) % 16 * 16 + (b % 16 * 4 + c / 64) / 4 = b := by omega
          have h3 : (b % 16 * 4 + c / 64) % 4 * 64 + c % 64 = c := by omega
          rw [h1, h2, h3]
        · subst hrest
          have hne : b64Encode (r1 :: rtl) ≠ [] := by
            intro hx
            exact absurd ((b64Encode_eq_nil_iff _).mp hx) (by simp)
          rw [if_neg (by
            simp only [List.isEmpty_iff]
            exact hne)]
          rw [b64DecChar_b64Char (a / 4) (by omega),
            b64DecChar_b64Char (a % 4 * 16 + b / 16) (by omega),
            b64DecChar_b64Char (b % 16 * 4 + c / 64) (by omega),
            b64DecChar_b64Char (c % 64) (by omega)]
          rw [htl]
          simp only [Option.bind_eq_bind, Option.some_bind, Option.pure_def]
          have h1 : a / 4 * 4 + (a % 4 * 16 + b / 16) / 16 = a := by omega
          have h2 : (a % 4 * 16 + b / 16) % 16 * 16 + (b % 16 * 4 + c / 64) / 4 = b := by omega
          have h3 : (b % 16 * 4 + c / 64) % 4 * 64 + c % 64 = c := by omega
          rw [h1, h2, h3]
  intro l
  exact main l.length l le_rfl

theorem siteFromJson_siteToJson (s : Site) : siteFromJson (siteToJson s) = some s := by
  cases s <;> rfl

theorem parseI64_intDecimal (i : Int) (hlo : -(2 ^ 63) ≤ i) (hhi : i ≤ 2 ^ 63 - 1) :
    Text.parseI64 (Text.intDecimal i) = some i := by
  obtain ⟨hval, hdig, hne, hm1, hm2, _⟩ := Text.natDecimal_spec i.toNat
  by_cases hneg : i < 0
  · obtain ⟨hvaln, hdign, hnen, _, _, _⟩ := Text.natDecimal_spec (-i).toNat
    rw [Text.intDecimal, if_pos hneg, Text.parseI64]
    simp only
    rw [if_pos (show True ∨ ('-' : Char) = '+' from Or.inl trivial)]
    rw [if_neg (by
      push_neg
      exact ⟨hnen, hdign⟩)]
    rw [if_pos trivial, hvaln]
    rw [if_pos (by omega)]
    congr 1
    omega
  · push_neg at hneg
    rw [Text.intDecimal, if_neg (by omega)]
    rcases hdl : Text.natDecimal i.toNat with _ | ⟨c, rest⟩
    · exact absurd hdl hne
    · rw [Text.parseI64]
      simp only
      have hcne : ¬(c = '-' ∨ c = '+') := by
        rintro (rfl | rfl)
        · exact hm1 (by rw [hdl]; exact List.mem_cons_self _ _)
        · exact hm2 (by rw [hdl]; exact List.mem_cons_self _ _)
      rw [if_neg hcne]
      rw [if_neg (by
        push_neg
        refine ⟨by simp, ?_⟩
        rw [← hdl, hdig])]
      have hcne2 : c ≠ '-' := fun hx => hcne (Or.inl hx)
      rw [if_neg hcne2]
      rw [← hdl, hval]
      rw [if_pos (by omega)]
      congr 1
      omega

end Serial

/-- C6 counterexample: with stored ids `{5}` and `latest_id = 6`, the code's
candidate list is `[6]` (the series starts at `max(id) = 5`, not at 1), while
the claimed set of missing ids in `[1, 6]` is `[1, 2, 3, 4, 6]`. -/
theorem c6_counterexample :
    IngestFA.idsToCheck [5] 6 = [6] ∧
    IngestFA.claimedIdsToCheck [5] 6 = [1, 2, 3, 4, 6] ∧
    IngestFA.idsToCheck [5] 6 ≠ IngestFA.claimedIdsToCheck [5] 6 := by
  refine ⟨?_, ?_, ?_⟩ <;> decide

/-- C6 (amended): on every iteration the candidate ids are the missing ids in
`[max_stored_id, latest_id]` — the set difference between
`generate_series(max(id), latest_id)` and the stored ids (empty when the store
is empty) — and they are processed oldest-first (the list is strictly
ascending). -/
theorem c6_candidate_ids (stored : List Int) (latest : Int) :
    (∀ x, x ∈ IngestFA.idsToCheck stored latest ↔
      ((∃ m ∈ stored, (∀ b ∈ stored, b ≤ m) ∧ m ≤ x) ∧ x ≤ latest ∧ x ∉ stored)) ∧
    (IngestFA.idsToCheck stored latest).Pairwise (· < ·) := by
  constructor
  · intro x
    unfold IngestFA.idsToCheck
    cases hmax : stored.max? with
    | none =>
      simp only [List.not_mem_nil, false_iff]
      rintro ⟨⟨m, hm, _, _⟩, _, _⟩
      rcases stored with _ | ⟨a, rest⟩
      · cases hm
      · simp [List.max?] at hmax
    | some lo =>
      obtain ⟨hlomem, hloub⟩ := IngestFA.max?_int_eq_some_iff.mp hmax
      rw [List.mem_filter, IngestFA.not_contains_iff, IngestFA.mem_generateSeries]
      constructor
      · rintro ⟨⟨h1, h2⟩, h3⟩
        exact ⟨⟨lo, hlomem, hloub, h1⟩, h2, h3⟩
      · rintro ⟨⟨m, hm, hub, hmx⟩, h2, h3⟩
        have : m ≤ lo := hloub m hm
        have : lo ≤ m := hub lo hlomem
        exact ⟨⟨by omega, h2⟩, h3⟩
  · unfold IngestFA.idsToCheck
    cases stored.max? with
    | none => exact List.Pairwise.nil
    | some lo =>
      exact List.Pairwise.sublist (List.filter_sublist _) (IngestFA.sorted_generateSeries _ _)

/-- C3: inserting a hash whose exact match is already present is a no-op —
on a well-formed duplicate-free tree, the guarded insert used by both
`create_tree` and the `hash_added` notification path leaves the tree
unchanged when the key is stored, a second insert of the same hash changes
the tree size by 0, distinctness of stored hashes is preserved, and the bulk
build itself always yields a well-formed tree with no duplicate hashes. -/
theorem c3_insert_dedup (rows : List (Option Int)) (t : HashIndex.BKTree) (h : Int)
    (hwf : HashIndex.treeWf t = true) (hnd : (HashIndex.treeKeys t).Nodup) :
    (HashIndex.nodeOfHash h ∈ HashIndex.treeKeys t → HashIndex.hashAdded t h = t) ∧
    HashIndex.treeSize (HashIndex.hashAdded (HashIndex.hashAdded t h) h) =
      HashIndex.treeSize (HashIndex.hashAdded t h) ∧
    (HashIndex.treeKeys (HashIndex.hashAdded t h)).Nodup ∧
    HashIndex.treeWf (HashIndex.createTree rows) = true ∧
    (HashIndex.treeKeys (HashIndex.createTree rows)).Nodup := by
  obtain ⟨hw1, hn1, hin1, hnoop⟩ := HashIndex.hashAdded_invariants hwf hnd h
  obtain ⟨hcw, hcn⟩ := HashIndex.createTree_invariants rows
  refine ⟨hnoop, ?_, hn1, hcw, hcn⟩
  have hsecond := (HashIndex.hashAdded_invariants hw1 hn1 h).2.2.2 hin1
  rw [hsecond]

/-- C3 witness: the invariants hold when a tree built from one row receives
its own hash again. -/
theorem c3_insert_dedup_witness :
    HashIndex.treeWf (HashIndex.createTree [some 5]) = true ∧
    (HashIndex.treeKeys (HashIndex.createTree [some 5])).Nodup ∧
    HashIndex.treeSize
        (HashIndex.hashAdded (HashIndex.hashAdded (HashIndex.createTree [some 5]) 5) 5) =
      HashIndex.treeSize (HashIndex.hashAdded (HashIndex.createTree [some 5]) 5) :=
  ⟨by decide, by decide,
    (c3_insert_dedup [] (HashIndex.createTree [some 5]) 5 (by decide) (by decide)).2.1⟩

/-- C2 counterexample: (a) an increment at unix second 61 is recorded under
window value 60 (`ts - ts % 60`), not under `floor(61 / 60) = 1` as the claim
states; (b) two rate-limited requests at unix seconds 61 and 30 — for which
the claimed `retry_after = 60 - (ts mod 60)` values differ (59 vs 30) —
produce identical `RateLimited` responses, so the response carries no
`retry_after` at all. -/
theorem c2_counterexample :
    (Api.update_rate_limit [] 1 5 ("image") 1 61).1 = [((1, 60, ("image")), 1)] ∧
    Api.claimedWindow 61 = 1 ∧ (60 : Int) ≠ Api.claimedWindow 61 ∧
    (Api.rateLimitStep [] ⟨1, 0, 0, 0⟩ 0 ("image") 1 61).2 =
      (Api.rateLimitStep [] ⟨1, 0, 0, 0⟩ 0 ("image") 1 30).2 ∧
    (60 : Int) - Int.tmod 61 60 ≠ 60 - Int.tmod 30 60 := by
  refine ⟨?_, ?_, ?_, ?_, ?_⟩ <;> decide

/-- C2 (amended): for every request to a rate-limited endpoint, before the
expensive work begins the service computes the window as
`unix_seconds - (unix_seconds mod 60)` (the epoch second starting the current
minute), atomically increments the `(api_key_id, window, bucket)` counter by
`incr` leaving every other counter unchanged, and: if the resulting count
exceeds the key's limit for that bucket, the request fails with a 429
`RateLimited` response carrying the bucket name (and no other data — in
particular no `retry_after`); otherwise the response carries headers
`x-rate-limit-total-<bucket>` equal to the limit and
`x-rate-limit-remaining-<bucket>` equal to `limit - count` (shown here on the
`/hashes` handler, whose charged bucket is `image`). -/
theorem c2_rate_limiting (s : Api.RateState) (key : Api.UserApiKey)
    (limit incr now : Int) (bucket : String) :
    Api.rlCount (Api.rateLimitStep s key limit bucket incr now).1
        (key.id, now - now.tmod 60, bucket) =
      Api.rlCount s (key.id, now - now.tmod 60, bucket) + incr
  ∧ (∀ k, k ≠ (key.id, now - now.tmod 60, bucket) →
      Api.rlCount (Api.rateLimitStep s key limit bucket incr now).1 k = Api.rlCount s k)
  ∧ (Api.rlCount s (key.id, now - now.tmod 60, bucket) + incr > limit →
      (Api.rateLimitStep s key limit bucket incr now).2 =
        .error (.rateLimited bucket) ∧ (Api.ApiError.rateLimited bucket).status = 429)
  ∧ (Api.rlCount s (key.id, now - now.tmod 60, bucket) + incr ≤ limit →
      (Api.rateLimitStep s key limit bucket incr now).2 =
        .ok (limit - (Api.rlCount s (key.id, now - now.tmod 60, bucket) + incr), limit))
  ∧ (∀ env hp dp s' trace res,
      Api.hashes_handler env s key now hp dp = (s', trace, .ok res) →
      res.headers = [(("x-rate-limit-total-image"), key.image_limit),
        (("x-rate-limit-remaining-image"), key.image_limit -
          (Api.rlCount s (key.id, now - now.tmod 60, ("image")) +
            (((Text.splitComma hp).take 10).filterMap Text.parseI64).length))]) := by
  obtain ⟨h1, h2, h3⟩ := Api.rateLimitStep_spec s key limit bucket incr now
  refine ⟨?_, ?_, ?_, h3, ?_⟩
  · rw [h1]
    exact Api.rlCount_rlUpsert_same _ _ _
  · intro k hk
    rw [h1]
    exact Api.rlCount_rlUpsert_other _ _ _ hk _
  · intro hgt
    exact ⟨h2 hgt, rfl⟩
  · intro env hp dp s' trace res heq
    obtain ⟨hc1, hc2⟩ := Api.hashes_handler_cases env s key now hp dp
    by_cases hcnt : Api.rlCount s (key.id, now - now.tmod 60, ("image")) +
        (((Text.splitComma hp).take 10).filterMap Text.parseI64).length > key.image_limit
    · rw [hc1 hcnt] at heq
      exact absurd (congrArg (fun t => t.2.2) heq) (by simp)
    · push_neg at hcnt
      rw [hc2 hcnt] at heq
      by_cases hq : ((Text.splitComma hp).take 10).filterMap Text.parseI64 = []
      · rw [dif_pos hq] at heq
        exact absurd (congrArg (fun t => t.2.2) heq) (by simp)
      · rw [dif_neg hq] at heq
        by_cases hd : dp.getD 3 > 10
        · rw [if_pos hd] at heq
          exact absurd (congrArg (fun t => t.2.2) heq) (by simp)
        · rw [if_neg hd] at heq
          have h5 := congrArg
            (fun t : Api.RateState × Api.SearchTrace × Except Api.ApiError Api.HashesResult =>
              t.2.2) heq
          simp only at h5
          have h6 := Except.ok.inj h5
          rw [← h6]

/-- C2 witness: a key with image limit 5 and two prior requests in the window
is charged 2 more at unix second 61 and remains available with remaining 3. -/
theorem c2_rate_limiting_witness :
    (Api.rateLimitStep [] ⟨1, 5, 5, 5⟩ 5 ("image") 2 61).2 = .ok (3, 5) := by
  have h := (c2_rate_limiting [] ⟨1, 5, 5, 5⟩ 5 2 61 ("image")).2.2.2.1 (by decide)
  exact h.trans (by decide)

/-- C8: a GET /hashes request whose effective distance parameter (defaulted
to 3) exceeds 10 — given a nonempty parsed hash list and an available rate
limit — fails with a 400 BadRequest whose message states the distance is too
large, and performs no index search (the search trace is empty). -/
theorem c8_hashes_distance_too_large (env : Api.SearchEnv) (s : Api.RateState)
    (key : Api.UserApiKey) (now : Int) (hp : List Char) (dp : Option Nat)
    (hne : ((Text.splitComma hp).take 10).filterMap Text.parseI64 ≠ [])
    (hrl : Api.rlCount s (key.id, now - now.tmod 60, ("image")) +
      (((Text.splitComma hp).take 10).filterMap Text.parseI64).length ≤ key.image_limit)
    (hd : dp.getD 3 > 10) :
    (Api.hashes_handler env s key now hp dp).2 =
      ([], .error (.badRequest (("distance too large: ").data ++
        Text.natDecimal (dp.getD 3)))) ∧
    (Api.ApiError.badRequest (("distance too large: ").data ++
      Text.natDecimal (dp.getD 3))).status = 400 := by
  obtain ⟨_, hc2⟩ := Api.hashes_handler_cases env s key now hp dp
  rw [hc2 hrl, dif_neg hne, if_pos hd]
  exact ⟨rfl, rfl⟩

/-- C8 witness: a single parsed hash with distance 11 is rejected without a
search. -/
theorem c8_hashes_distance_too_large_witness :
    (Api.hashes_handler ⟨fun _ _ => [], fun _ => []⟩ [] ⟨1, 5, 5, 5⟩ 0
        ("1").data (some 11)).2 =
      ([], .error (.badRequest (("distance too large: ").data ++
        Text.natDecimal 11))) :=
  (c8_hashes_distance_too_large ⟨fun _ _ => [], fun _ => []⟩ [] ⟨1, 5, 5, 5⟩ 0
    ("1").data (some 11) (by decide) (by decide) (by decide)).1

/-- C10: GET /hashes (a) charges the image bucket by the number of
comma-separated entries among the first 10 that parse as signed 64-bit
integers (possibly 0) — unparsable entries are silently dropped; (b) given an
available rate limit, it answers 400 "hashes must be provided" exactly when
no entry parses; and (c) entries beyond the first 10 never influence the
response: for any 10 comma-free fragments, appending further fragments
leaves the handler's entire output unchanged. -/
theorem c10_hashes_parsing (env : Api.SearchEnv) (s : Api.RateState)
    (key : Api.UserApiKey) (now : Int) (hp : List Char) (dp : Option Nat) :
    Api.rlCount (Api.hashes_handler env s key now hp dp).1
        (key.id, now - now.tmod 60, ("image")) =
      Api.rlCount s (key.id, now - now.tmod 60, ("image")) +
        (((Text.splitComma hp).take 10).filterMap Text.parseI64).length
  ∧ (Api.rlCount s (key.id, now - now.tmod 60, ("image")) +
        (((Text.splitComma hp).take 10).filterMap Text.parseI64).length ≤
        key.image_limit →
      ((Api.hashes_handler env s key now hp dp).2.2 =
          .error (.badRequest ("hashes must be provided").data) ↔
        ((Text.splitComma hp).take 10).filterMap Text.parseI64 = []))
  ∧ (∀ (es extra : List (List Char)), es.length = 10 →
      (∀ e ∈ es ++ extra, ',' ∉ e) →
      Api.hashes_handler env s key now (Text.joinComma (es ++ extra)) dp =
        Api.hashes_handler env s key now (Text.joinComma es) dp) := by
  obtain ⟨hc1, hc2⟩ := Api.hashes_handler_cases env s key now hp dp
  refine ⟨?_, ?_, ?_⟩
  · by_cases hcnt : Api.rlCount s (key.id, now - now.tmod 60, ("image")) +
        (((Text.splitComma hp).take 10).filterMap Text.parseI64).length > key.image_limit
    · rw [hc1 hcnt]
      exact Api.rlCount_rlUpsert_same _ _ _
    · push_neg at hcnt
      rw [hc2 hcnt]
      exact Api.rlCount_rlUpsert_same _ _ _
  · intro hle
    rw [hc2 hle]
    constructor
    · intro heq
      by_cases hq : ((Text.splitComma hp).take 10).filterMap Text.parseI64 = []
      · exact hq
      · exfalso
        rw [dif_neg hq] at heq
        by_cases hd : dp.getD 3 > 10
        · rw [if_pos hd] at heq
          simp only at heq
          have hmeq := Api.ApiError.badRequest.inj (Except.error.inj heq)
          have hh := congrArg List.head? hmeq
          rw [Api.distanceTooLargeMsg_head] at hh
          exact absurd hh (by decide)
        · rw [if_neg hd] at heq
          exact absurd heq (by simp)
    · intro hq
      rw [dif_pos hq]
  · intro es extra hlen hfree
    have hes_ne : es ≠ [] := by
      intro h
      rw [h] at hlen
      simp at hlen
    have hall_ne : es ++ extra ≠ [] := by
      intro h
      exact hes_ne (List.append_eq_nil.mp h).1
    have h1 := Text.splitComma_joinComma (es ++ extra) hall_ne hfree
    have h2 := Text.splitComma_joinComma es hes_ne
      (fun e he => hfree e (List.mem_append_left _ he))
    have h3 : (es ++ extra).take 10 = es := by
      rw [List.take_append_eq_append_take]
      rw [hlen]
      simp [List.take_of_length_le (le_of_eq hlen)]
    have h4 : es.take 10 = es := List.take_of_length_le (le_of_eq hlen)
    simp only [Api.hashes_handler, h1, h2, h3, h4]

/-- C10 witness: the input "1,x" charges 1 (only "1" parses), and the
parsed-empty 400 does not fire. -/
theorem c10_hashes_parsing_witness :
    Api.rlCount (Api.hashes_handler ⟨fun _ _ => [], fun _ => []⟩ [] ⟨1, 5, 5, 5⟩ 0
        ("1,x").data none).1 (1, 0, ("image")) = 1 ∧
    ¬((Api.hashes_handler ⟨fun _ _ => [], fun _ => []⟩ [] ⟨1, 5, 5, 5⟩ 0
        ("1,x").data none).2.2 =
      .error (.badRequest ("hashes must be provided").data)) := by
  have h := c10_hashes_parsing ⟨fun _ _ => [], fun _ => []⟩ [] ⟨1, 5, 5, 5⟩ 0
    ("1,x").data none
  constructor
  · exact h.1.trans (by decide)
  · intro habs
    have h2 := (h.2.1 (by decide)).mp habs
    exact absurd h2 (by decide)

/-- C1: for every POST /image search with an authenticated key and available
rate limits: with type `exact` the service performs a single index lookup at
distance 0; with type `close` (also the default) it first looks up at
distance 0 and performs a second lookup at distance 10 exactly when the first
returns no results; with type `force` it looks up at distance 10 directly;
and in every case the returned matches are the rows of the final lookup,
sorted ascending by distance. -/
theorem c1_image_search_modes (env : Api.SearchEnv) (s : Api.RateState)
    (key : Api.UserApiKey) (now : Int) (st : Option Api.ImageSearchType) (h : Int)
    (himg : Api.rlCount s (key.id, now - now.tmod 60, ("image")) + 1 ≤ key.image_limit)
    (hhash : Api.rlCount s (key.id, now - now.tmod 60, ("hash")) + 1 ≤ key.hash_limit) :
    (st = some .exact →
      (Api.image_handler env s key now st h).2.1 = [([h], 0)] ∧
      ∀ res, (Api.image_handler env s key now st h).2.2 = .ok res →
        res.matched.Perm (env.db (Api.indexTriples env [h] 0)))
  ∧ (st = some .force →
      (Api.image_handler env s key now st h).2.1 = [([h], 10)] ∧
      ∀ res, (Api.image_handler env s key now st h).2.2 = .ok res →
        res.matched.Perm (env.db (Api.indexTriples env [h] 10)))
  ∧ ((st = some .close ∨ st = none) →
      (env.db (Api.indexTriples env [h] 0) ≠ [] →
        (Api.image_handler env s key now st h).2.1 = [([h], 0)] ∧
        ∀ res, (Api.image_handler env s key now st h).2.2 = .ok res →
          res.matched.Perm (env.db (Api.indexTriples env [h] 0))) ∧
      (env.db (Api.indexTriples env [h] 0) = [] →
        (Api.image_handler env s key now st h).2.1 = [([h], 0), ([h], 10)] ∧
        ∀ res, (Api.image_handler env s key now st h).2.2 = .ok res →
          res.matched.Perm (env.db (Api.indexTriples env [h] 10))))
  ∧ (∀ res, (Api.image_handler env s key now st h).2.2 = .ok res →
      res.matched.Pairwise (fun a b => a.distance ≤ b.distance)) := by
  have hkne : ((key.id, now - now.tmod 60, ("hash")) : Int × Int × String) ≠
      (key.id, now - now.tmod 60, ("image")) := by
    intro hx
    have hss := congrArg (fun p : Int × Int × String => p.2.2) hx
    simp only at hss
    exact absurd hss (by decide)
  have hstep1 := Api.rateLimitStep_ok s key key.image_limit ("image") 1 now himg
  have hhash1 : Api.rlCount
      (Api.rlUpsert (key.id, now - now.tmod 60, ("image")) 1 s).1
      (key.id, now - now.tmod 60, ("hash")) + 1 ≤ key.hash_limit := by
    rw [Api.rlCount_rlUpsert_other _ _ _ hkne _]
    exact hhash
  have hstep2 := Api.rateLimitStep_ok
    (Api.rlUpsert (key.id, now - now.tmod 60, ("image")) 1 s).1 key key.hash_limit
    ("hash") 1 now hhash1
  have hred : Api.image_handler env s key now st h =
      ((Api.rlUpsert (key.id, now - now.tmod 60, ("hash")) 1
          (Api.rlUpsert (key.id, now - now.tmod 60, ("image")) 1 s).1).1,
        (Api.imageModeSearch env (st.getD .close) [h]).1,
        .ok { hash := h
              matched := (Api.imageModeSearch env (st.getD .close) [h]).2.mergeSort
                Api.byDistance
              headers := [(("x-image-hash"), h),
                (("x-rate-limit-total-image"), key.image_limit),
                (("x-rate-limit-remaining-image"), key.image_limit -
                  (Api.rlCount s (key.id, now - now.tmod 60, ("image")) + 1)),
                (("x-rate-limit-total-hash"), key.hash_limit),
                (("x-rate-limit-remaining-hash"), key.hash_limit -
                  (Api.rlCount (Api.rlUpsert (key.id, now - now.tmod 60, ("image")) 1 s).1
                    (key.id, now - now.tmod 60, ("hash")) + 1))] }) := by
    rw [Api.image_handler]
    simp only [hstep1, hstep2]
  refine ⟨?_, ?_, ?_, ?_⟩
  · rintro rfl
    rw [hred]
    simp only [Option.getD_some, Api.imageModeSearch_exact]
    exact ⟨trivial, fun res heq => by
      rw [← Except.ok.inj heq]
      exact List.mergeSort_perm _ _⟩
  · rintro rfl
    rw [hred]
    simp only [Option.getD_some, Api.imageModeSearch_force]
    exact ⟨trivial, fun res heq => by
      rw [← Except.ok.inj heq]
      exact List.mergeSort_perm _ _⟩
  · intro hst
    have hgetd : st.getD .close = .close := by
      rcases hst with rfl | rfl
      · rfl
      · rfl
    constructor
    · intro hne
      rw [hred, hgetd, Api.imageModeSearch_close_of_ne env [h] hne]
      exact ⟨rfl, fun res heq => by
        rw [← Except.ok.inj heq]
        exact List.mergeSort_perm _ _⟩
    · intro hemp
      rw [hred, hgetd, Api.imageModeSearch_close_of_empty env [h] hemp]
      exact ⟨rfl, fun res heq => by
        rw [← Except.ok.inj heq]
        exact List.mergeSort_perm _ _⟩
  · intro res heq
    rw [hred] at heq
    simp only at heq
    rw [← Except.ok.inj heq]
    have hsorted := @List.sorted_mergeSort _ Api.byDistance
      (fun a b c => Api.byDistance_trans a b c)
      (fun a b => Api.byDistance_total a b)
      (Api.imageModeSearch env (st.getD .close) [h]).2
    exact hsorted.imp (fun hab => by
      simpa [Api.byDistance, decide_eq_true_eq] using hab)

/-- C1 witness: in exact mode with one indexed hit at distance 0, exactly one
lookup at distance 0 happens and the match list is that row. -/
theorem c1_image_search_modes_witness :
    (Api.image_handler
        ⟨fun hq _ => [(hq, 0)],
          fun ts => ts.map (fun t => ⟨t.found_hash, t.searched_hash, t.distance, 0⟩)⟩
        [] ⟨1, 5, 5, 5⟩ 0 (some .exact) 7).2.1 = [([7], 0)] :=
  ((c1_image_search_modes
    ⟨fun hq _ => [(hq, 0)],
      fun ts => ts.map (fun t => ⟨t.found_hash, t.searched_hash, t.distance, 0⟩)⟩
    [] ⟨1, 5, 5, 5⟩ 0 (some .exact) 7 (by decide) (by decide)).1 rfl).1

/-- C4: a GET /url request with available image and hash rate limits fails
with a 400 (image too large) response when the advertised Content-Length
exceeds 10 000 000 or when the accumulated downloaded bytes would exceed
10 000 000 — a body over the cap fails while one of at most 10 000 000 bytes
passes the size check — and on that failure the image and hash counters
charged before the download keep their incremented values (no refund). -/
theorem c4_url_size_cap (env : Api.SearchEnv) (s : Api.RateState)
    (key : Api.UserApiKey) (now : Int) (clh : Option (List Char))
    (chunks : List Nat) (urlHash : Int) (dp : Option Nat)
    (himg : Api.rlCount s (key.id, now - now.tmod 60, ("image")) + 1 ≤ key.image_limit)
    (hhash : Api.rlCount s (key.id, now - now.tmod 60, ("hash")) + 1 ≤ key.hash_limit) :
    ((clh.bind Text.parseUsize).getD 0 > 10000000 →
      (Api.url_handler env s key now clh chunks urlHash dp).2 =
        ([], .error (.badRequest (Api.imageTooLargeMsg ((clh.bind Text.parseUsize).getD 0)))) ∧
      Api.rlCount (Api.url_handler env s key now clh chunks urlHash dp).1
          (key.id, now - now.tmod 60, ("image")) =
        Api.rlCount s (key.id, now - now.tmod 60, ("image")) + 1 ∧
      Api.rlCount (Api.url_handler env s key now clh chunks urlHash dp).1
          (key.id, now - now.tmod 60, ("hash")) =
        Api.rlCount s (key.id, now - now.tmod 60, ("hash")) + 1)
  ∧ ((clh.bind Text.parseUsize).getD 0 ≤ 10000000 → chunks.sum > 10000000 →
      (Api.url_handler env s key now clh chunks urlHash dp).2 =
        ([], .error (.badRequest (Api.imageTooLargeMsg ((clh.bind Text.parseUsize).getD 0)))) ∧
      Api.rlCount (Api.url_handler env s key now clh chunks urlHash dp).1
          (key.id, now - now.tmod 60, ("image")) =
        Api.rlCount s (key.id, now - now.tmod 60, ("image")) + 1 ∧
      Api.rlCount (Api.url_handler env s key now clh chunks urlHash dp).1
          (key.id, now - now.tmod 60, ("hash")) =
        Api.rlCount s (key.id, now - now.tmod 60, ("hash")) + 1)
  ∧ ((clh.bind Text.parseUsize).getD 0 ≤ 10000000 → chunks.sum ≤ 10000000 →
      (Api.url_handler env s key now clh chunks urlHash dp).2.2 ≠
        .error (.badRequest (Api.imageTooLargeMsg ((clh.bind Text.parseUsize).getD 0))))
  ∧ (Api.ApiError.badRequest
      (Api.imageTooLargeMsg ((clh.bind Text.parseUsize).getD 0))).status = 400 := by
  have hkne : ((key.id, now - now.tmod 60, ("hash")) : Int × Int × String) ≠
      (key.id, now - now.tmod 60, ("image")) := by
    intro hx
    have hss := congrArg (fun p : Int × Int × String => p.2.2) hx
    simp only at hss
    exact absurd hss (by decide)
  have hkne' : ((key.id, now - now.tmod 60, ("image")) : Int × Int × String) ≠
      (key.id, now - now.tmod 60, ("hash")) := fun hx => hkne hx.symm
  have hstep1 := Api.rateLimitStep_ok s key key.image_limit ("image") 1 now himg
  have hc1hash : Api.rlCount
      (Api.rlUpsert (key.id, now - now.tmod 60, ("image")) 1 s).1
      (key.id, now - now.tmod 60, ("hash")) =
      Api.rlCount s (key.id, now - now.tmod 60, ("hash")) :=
    Api.rlCount_rlUpsert_other _ _ _ hkne _
  have hhash1 : Api.rlCount
      (Api.rlUpsert (key.id, now - now.tmod 60, ("image")) 1 s).1
      (key.id, now - now.tmod 60, ("hash")) + 1 ≤ key.hash_limit := by
    rw [hc1hash]; exact hhash
  have hstep2 := Api.rateLimitStep_ok
    (Api.rlUpsert (key.id, now - now.tmod 60, ("image")) 1 s).1 key key.hash_limit
    ("hash") 1 now hhash1
  -- the state after both charges, and its counters
  have hs2img : Api.rlCount
      (Api.rlUpsert (key.id, now - now.tmod 60, ("hash")) 1
        (Api.rlUpsert (key.id, now - now.tmod 60, ("image")) 1 s).1).1
      (key.id, now - now.tmod 60, ("image")) =
      Api.rlCount s (key.id, now - now.tmod 60, ("image")) + 1 := by
    rw [Api.rlCount_rlUpsert_other _ _ _ hkne' _]
    exact Api.rlCount_rlUpsert_same _ _ _
  have hs2hash : Api.rlCount
      (Api.rlUpsert (key.id, now - now.tmod 60, ("hash")) 1
        (Api.rlUpsert (key.id, now - now.tmod 60, ("image")) 1 s).1).1
      (key.id, now - now.tmod 60, ("hash")) =
      Api.rlCount s (key.id, now - now.tmod 60, ("hash")) + 1 := by
    rw [Api.rlCount_rlUpsert_same _ _ _, hc1hash]
  refine ⟨?_, ?_, ?_, rfl⟩
  · intro hcl
    rw [Api.url_handler]
    simp only [hstep1, hstep2]
    rw [if_pos hcl]
    exact ⟨rfl, hs2img, hs2hash⟩
  · intro hcl hsum
    rw [Api.url_handler]
    simp only [hstep1, hstep2]
    rw [if_neg (by omega)]
    have hacc := (Api.accumulateChunks_spec ((clh.bind Text.parseUsize).getD 0)
      chunks 0).2 (by omega) (by omega)
    rw [hacc]
    exact ⟨rfl, hs2img, hs2hash⟩
  · intro hcl hsum
    rw [Api.url_handler]
    simp only [hstep1, hstep2]
    rw [if_neg (by omega)]
    have hacc := (Api.accumulateChunks_spec ((clh.bind Text.parseUsize).getD 0)
      chunks 0).1 (by omega)
    rw [hacc]
    by_cases hd : dp.getD 3 > 10
    · rw [Api.lookup_hashes, if_pos hd]
      intro heq
      simp only at heq
      have hmeq := Api.ApiError.badRequest.inj (Except.error.inj heq)
      have hh := congrArg List.head? hmeq
      rw [Api.distanceTooLargeMsg_head, Api.imageTooLargeMsg_head] at hh
      exact absurd hh (by decide)
    · rw [Api.lookup_hashes, if_neg hd]
      intro heq
      exact absurd heq (by simp)

/-- C4 witness: with empty counters, a body of exactly 10 000 000 bytes
passes the size check while 10 000 001 bytes fails with the too-large error,
state unchanged apart from the two charges. -/
theorem c4_url_size_cap_witness :
    ((Api.url_handler ⟨fun _ _ => [], fun _ => []⟩ [] ⟨1, 5, 5, 5⟩ 0 none
        [10000001] 7 none).2 =
      ([], .error (.badRequest (Api.imageTooLargeMsg 0))) ∧
     Api.rlCount (Api.url_handler ⟨fun _ _ => [], fun _ => []⟩ [] ⟨1, 5, 5, 5⟩ 0 none
        [10000001] 7 none).1 (1, 0, ("image")) = 0 + 1 ∧
     Api.rlCount (Api.url_handler ⟨fun _ _ => [], fun _ => []⟩ [] ⟨1, 5, 5, 5⟩ 0 none
        [10000001] 7 none).1 (1, 0, ("hash")) = 0 + 1) ∧
    (Api.url_handler ⟨fun _ _ => [], fun _ => []⟩ [] ⟨1, 5, 5, 5⟩ 0 none
        [10000000] 7 none).2.2 ≠
      .error (.badRequest (Api.imageTooLargeMsg 0)) :=
  ⟨(c4_url_size_cap ⟨fun _ _ => [], fun _ => []⟩ [] ⟨1, 5, 5, 5⟩ 0 none
      [10000001] 7 none (by decide) (by decide)).2.1 (by decide) (by decide),
   (c4_url_size_cap ⟨fun _ _ => [], fun _ => []⟩ [] ⟨1, 5, 5, 5⟩ 0 none
      [10000000] 7 none (by decide) (by decide)).2.2.1 (by decide) (by decide)⟩

/-- C5 counterexample: serializing a payload with absent `file_sha256` and
`hash` emits both fields with JSON value null (`serialize_none`), while the
claim says they are omitted: the serialized object has six fields, the
claimed shape four. -/
theorem c5_counterexample :
    Serial.encodeWebHookData ⟨.furAffinity, 1, [], [], none, none⟩ =
      .obj [(("site"), .str ("FurAffinity").data),
            (("site_id"), .str ['1']),
            (("artist"), .str []),
            (("file_url"), .str []),
            (("file_sha256"), .null),
            (("hash"), .null)] ∧
    Serial.claimedEncodeAbsent ⟨.furAffinity, 1, [], [], none, none⟩ =
      .obj [(("site"), .str ("FurAffinity").data),
            (("site_id"), .str ['1']),
            (("artist"), .str []),
            (("file_url"), .str [])] ∧
    Serial.encodeWebHookData ⟨.furAffinity, 1, [], [], none, none⟩ ≠
      Serial.claimedEncodeAbsent ⟨.furAffinity, 1, [], [], none, none⟩ := by
  refine ⟨rfl, rfl, ?_⟩
  intro h
  have hlen := congrArg
    (fun j => match j with | Serial.Json.obj fs => fs.length | _ => 0) h
  simp [Serial.encodeWebHookData, Serial.encodeFields, Serial.claimedEncodeAbsent] at hlen

/-- C5 (amended): serializing a webhook payload emits `file_sha256` and
`hash` as base64 strings when present and as JSON null when absent (the
fields are always present in the object), emits `site_id` as a
string-encoded integer, and for every defined payload (byte values below
256, an 8-byte hash, `site_id` within the `i64` range) deserializing the
serialized JSON yields the original payload. -/
theorem c5_payload_serialization (w : Serial.WebHookData)
    (hsha : ∀ bs, w.file_sha256 = some bs → ∀ b ∈ bs, b < 256)
    (hhash8 : ∀ bs, w.hash = some bs → bs.length = 8 ∧ ∀ b ∈ bs, b < 256)
    (hlo : -(2 ^ 63) ≤ w.site_id) (hhi : w.site_id ≤ 2 ^ 63 - 1) :
    (∀ bs, w.file_sha256 = some bs →
      Serial.getField (Serial.encodeFields w) ("file_sha256") =
        some (.str (Serial.b64Encode bs)))
  ∧ (∀ bs, w.hash = some bs →
      Serial.getField (Serial.encodeFields w) ("hash") =
        some (.str (Serial.b64Encode bs)))
  ∧ (w.file_sha256 = none →
      Serial.getField (Serial.encodeFields w) ("file_sha256") = some .null)
  ∧ (w.hash = none →
      Serial.getField (Serial.encodeFields w) ("hash") = some .null)
  ∧ Serial.getField (Serial.encodeFields w) ("site_id") =
      some (.str (Text.intDecimal w.site_id))
  ∧ Serial.decodeWebHookData (Serial.encodeWebHookData w) = some w := by
  have gsha : Serial.getField (Serial.encodeFields w) ("file_sha256") =
      some (Serial.optBytesToJson w.file_sha256) := rfl
  have ghash : Serial.getField (Serial.encodeFields w) ("hash") =
      some (Serial.optBytesToJson w.hash) := rfl
  refine ⟨?_, ?_, ?_, ?_, rfl, ?_⟩
  · intro bs hbs
    rw [gsha, hbs]
    rfl
  · intro bs hbs
    rw [ghash, hbs]
    rfl
  · intro hbs
    rw [gsha, hbs]
    rfl
  · intro hbs
    rw [ghash, hbs]
    rfl
  · have h1 : (Serial.getField (Serial.encodeFields w) ("site")).bind
        Serial.siteFromJson = some w.site := by
      show (some (Serial.siteToJson w.site)).bind Serial.siteFromJson = some w.site
      rw [Option.some_bind, Serial.siteFromJson_siteToJson]
    have h2 : (Serial.getField (Serial.encodeFields w) ("site_id")).bind
        Serial.decodeI64String = some w.site_id := by
      show (some (Serial.Json.str (Text.intDecimal w.site_id))).bind
        Serial.decodeI64String = some w.site_id
      rw [Option.some_bind]
      exact Serial.parseI64_intDecimal _ hlo hhi
    have h3 : (Serial.getField (Serial.encodeFields w) ("artist")).bind
        Serial.decodeStr = some w.artist := rfl
    have h4 : (Serial.getField (Serial.encodeFields w) ("file_url")).bind
        Serial.decodeStr = some w.file_url := rfl
    have h5 : (Serial.getField (Serial.encodeFields w) ("file_sha256")).bind
        Serial.decodeOptBytes = some w.file_sha256 := by
      rw [gsha, Option.some_bind]
      cases hs : w.file_sha256 with
      | none => rfl
      | some bs =>
        show (Serial.b64Decode (Serial.b64Encode bs)).map some = some (some bs)
        rw [Serial.b64_roundtrip bs (hsha bs hs)]
        rfl
    have h6 : (Serial.getField (Serial.encodeFields w) ("hash")).bind
        Serial.decodeOptBytes8 = some w.hash := by
      rw [ghash, Option.some_bind]
      cases hs : w.hash with
      | none => rfl
      | some bs =>
        obtain ⟨hlen8, hbnd⟩ := hhash8 bs hs
        show (match Serial.b64Decode (Serial.b64Encode bs) with
          | some bs' => if bs'.length = 8 then some (some bs') else none
          | none => none) = some (some bs)
        rw [Serial.b64_roundtrip bs hbnd]
        simp only [hlen8, if_pos]
    rw [Serial.encodeWebHookData, Serial.decodeWebHookData]
    rw [h1, h2, h3, h4, h5, h6]
    rfl

/-- C5 witness: a fully populated payload round-trips. -/
theorem c5_payload_serialization_witness :
    Serial.decodeWebHookData (Serial.encodeWebHookData
      ⟨.e621, -5, ['a'], ['u'], some [255, 0], some [1, 2, 3, 4, 5, 6, 7, 8]⟩) =
      some ⟨.e621, -5, ['a'], ['u'], some [255, 0], some [1, 2, 3, 4, 5, 6, 7, 8]⟩ :=
  (c5_payload_serialization
    ⟨.e621, -5, ['a'], ['u'], some [255, 0], some [1, 2, 3, 4, 5, 6, 7, 8]⟩
    (fun bs hbs => by rw [← Option.some.inj hbs]; decide)
    (fun bs hbs => by rw [← Option.some.inj hbs]; exact ⟨by decide, by decide⟩)
    (by decide) (by decide)).2.2.2.2.2

/-- C7 counterexample: the `send_webhook` jobs the `new_submission` handler
enqueues carry no explicit retry or reservation settings — `retry = 3` and
`reserve_for = 30` are set on the `new_submission` job built by
`queue_webhook`, not on `send_webhook` jobs; moreover a 301 response (non-2xx
but not 4xx/5xx) does not fail the handler, so not every non-2xx response
triggers a retry. -/
theorem c7_counterexample :
    ((Webhook.new_submission_jobs [("http://example.com")] (.payload 0)).map
        Webhook.Job.retry = [none]) ∧
    ((Webhook.new_submission_jobs [("http://example.com")] (.payload 0)).map
        Webhook.Job.reserveFor = [none]) ∧
    (Webhook.queue_webhook (.payload 0)).retry = some 3 ∧
    (Webhook.queue_webhook (.payload 0)).reserveFor = some 30 ∧
    (Webhook.queue_webhook (.payload 0)).kind = ("new_submission") ∧
    Webhook.send_webhook_result (some 301) = .ok () := by
  refine ⟨rfl, rfl, rfl, rfl, rfl, rfl⟩

/-- C7 (amended): every `send_webhook` job POSTs its payload as JSON to the
target endpoint through a client with a 3 second timeout; a 4xx/5xx response
or a transport error fails the handler, triggering the queue's job-level
retry.  The up-to-3-attempts / 30-second-reservation settings are applied to
the `new_submission` job enqueued by `queue_webhook`; the `send_webhook`
jobs themselves are enqueued on queue `fuzzysearch_webhook` without explicit
retry or reservation settings (the crate defaults apply). -/
theorem c7_webhook_delivery (endpoints : List String) (data : Webhook.JobArg)
    (endpoint : String) :
    Webhook.webhookClient.timeoutSecs = 3
  ∧ (Webhook.send_webhook_request data endpoint).url = endpoint
  ∧ (Webhook.send_webhook_request data endpoint).jsonBody = data
  ∧ (Webhook.send_webhook_request data endpoint).timeoutSecs = 3
  ∧ (∀ j ∈ Webhook.new_submission_jobs endpoints data,
      j.kind = ("send_webhook") ∧ j.queue = ("fuzzysearch_webhook") ∧
      j.retry = none ∧ j.reserveFor = none ∧ j.args.head? = some data)
  ∧ (Webhook.queue_webhook data).retry = some 3
  ∧ (Webhook.queue_webhook data).reserveFor = some 30
  ∧ (Webhook.queue_webhook data).kind = ("new_submission")
  ∧ (Webhook.queue_webhook data).queue = ("fuzzysearch_webhook")
  ∧ (∀ resp, Webhook.send_webhook_result resp = .error () ↔
      (resp = none ∨ ∃ st, resp = some st ∧ 400 ≤ st ∧ st ≤ 599)) := by
  refine ⟨rfl, rfl, rfl, rfl, ?_, rfl, rfl, rfl, rfl, ?_⟩
  · intro j hj
    rcases List.mem_map.mp hj with ⟨e, _, rfl⟩
    exact ⟨rfl, rfl, rfl, rfl, rfl⟩
  · intro resp
    cases resp with
    | none => simp [Webhook.send_webhook_result]
    | some st =>
      rw [Webhook.send_webhook_result]
      by_cases hs : 400 ≤ st ∧ st ≤ 599
      · rw [if_pos hs]
        simp [hs]
      · rw [if_neg hs]
        constructor
        · intro h
          cases h
        · rintro (h | ⟨st', hst', hb1, hb2⟩)
          · cases h
          · rw [Option.some.inj hst'] at hs
            exact absurd ⟨hb1, hb2⟩ hs

/-- C7 witness: a transport error fails the handler (triggering retry). -/
theorem c7_webhook_delivery_witness :
    Webhook.send_webhook_result none = .error () ∧
    (Webhook.queue_webhook (.payload 1)).retry = some 3 :=
  ⟨((c7_webhook_delivery [] (.payload 1) ("")).2.2.2.2.2.2.2.2.2 none).mpr (Or.inl rfl),
    (c7_webhook_delivery [] (.payload 1) ("")).2.2.2.2.2.1⟩

/-- C9: for every `furaffinity_load` job whose stored row has an `updated_at`
in the past, the handler returns success at the 30-day check without
contacting the upstream site, because the signed duration
`last_updated - now` is negative and its `num_days()` is therefore at most 0,
hence `< 30`. -/
theorem c9_refresh_skips_past_updates (lu now : Int) (h : lu < now) :
    Refresh.furaffinityLoad (some lu) now = .skippedRecent := by
  have hd := Refresh.tdiv_nonpos_of_neg (a := lu - now) (by omega)
  have hlt : Refresh.numDays (lu - now) < 30 := by unfold Refresh.numDays; omega
  simp only [Refresh.furaffinityLoad, hlt, if_true]

/-- C9 witness: a submission last updated one second in the past is skipped. -/
theorem c9_refresh_skips_past_updates_witness :
    (0 : Int) < 1 ∧ Refresh.furaffinityLoad (some 0) 1 = .skippedRecent :=
  ⟨by decide, c9_refresh_skips_past_updates 0 1 (by decide)⟩

end Fuzzysearch
